import Mathlib

/-
  Verification of the webgpu-utils pass-assembly and shader-composition core.

  Shallow embedding notes:
  - JavaScript strings are modelled as Lean String / List Char.
  - The JS regular expressions used by the code are embedded as character-level
    matchers with the same semantics on ASCII input. The JS word class \w is
    [A-Za-z0-9_] and the word boundary \b separates a word char from a
    non-word char or the string edge.
  - The JS whitespace class \s is modelled by its ASCII members; the sources
    only ever produce ASCII shader text.
-/

namespace WGU

/-- JS \w character class: [A-Za-z0-9_]. -/
def isWordChar (c : Char) : Bool :=
  (('a' ≤ c && c ≤ 'z') || ('A' ≤ c && c ≤ 'Z') || ('0' ≤ c && c ≤ '9') || c = '_')

/-- JS \s character class restricted to its ASCII members. -/
def jsWS (c : Char) : Bool :=
  c = ' ' || c = '\t' || c = '\n' || c = '\r' || c = '\x0b' || c = '\x0c'

/-- True when the word ends at this point: next char (if any) is not a word char. -/
def wordEndsAt (cs : List Char) : Bool :=
  match cs with
  | [] => true
  | c :: _ => !isWordChar c

/-- A whole-word occurrence of w starts here: w is a prefix and the char after it
is not a word char. The boundary before is handled by the caller. -/
def wordMatchHere (cs w : List Char) : Bool :=
  w.isPrefixOf cs && wordEndsAt (cs.drop w.length)

/-- Scan for a whole-word occurrence of w; prev is the char before the cursor.
Models the JS regex test of a pattern of shape word-boundary w word-boundary. -/
def containsWordAux (prev : Option Char) (cs w : List Char) : Bool :=
  match cs with
  | [] => false
  | c :: rest =>
    ((match prev with | none => true | some p => !isWordChar p) && wordMatchHere (c :: rest) w)
      || containsWordAux (some c) rest w

/-- JS regex test for pattern word-boundary w word-boundary (w made of word chars). -/
def containsWord (code : String) (w : String) : Bool :=
  containsWordAux none code.toList w.toList

/-- One position of the mouse auto-binding regex: after the literal mouse, either
a word boundary, or a .pos or .button member access followed by a boundary.
Models the alternatives of the JS pattern with an optional member group. -/
def mouseMatchHere (cs : List Char) : Bool :=
  "mouse".toList.isPrefixOf cs &&
    (let rest := cs.drop 5
     wordEndsAt rest
       || (".pos".toList.isPrefixOf rest && wordEndsAt (rest.drop 4))
       || (".button".toList.isPrefixOf rest && wordEndsAt (rest.drop 7)))

def mousePatAux (prev : Option Char) (cs : List Char) : Bool :=
  match cs with
  | [] => false
  | c :: rest =>
    ((match prev with | none => true | some p => !isWordChar p) && mouseMatchHere (c :: rest))
      || mousePatAux (some c) rest

/-- JS regex test for the mouse auto-binding pattern. -/
def mousePat (code : String) : Bool :=
  mousePatAux none code.toList

/-- After a function name: optional JS whitespace then an opening paren. -/
def afterSpacesParen (cs : List Char) : Bool :=
  match cs with
  | [] => false
  | c :: rest => if c = '(' then true else if jsWS c then afterSpacesParen rest else false

/-- One position of a noise-call alternative: boundary handled by caller, the
name, optional whitespace, an opening paren. -/
def fnCallMatchHere (cs nm : List Char) : Bool :=
  nm.isPrefixOf cs && afterSpacesParen (cs.drop nm.length)

def noiseCallAux (prev : Option Char) (cs : List Char) : Bool :=
  match cs with
  | [] => false
  | c :: rest =>
    ((match prev with | none => true | some p => !isWordChar p)
        && (fnCallMatchHere (c :: rest) "noise".toList
            || fnCallMatchHere (c :: rest) "noise2".toList
            || fnCallMatchHere (c :: rest) "noise3".toList))
      || noiseCallAux (some c) rest

/-- JS regex test for the noise-family call pattern: word boundary, one of the
noise names, optional whitespace, an opening paren. -/
def noiseRef (code : String) : Bool :=
  noiseCallAux none code.toList

/-
  Auto-Binding Resolver (ComputePass constructor, first phase).

  Resource handles: the four well-known singletons are created during
  initialization with the names found in the sources (mouse, time, renderTxtr,
  feedbackTxtr, noiseOffset). The model assumes an initialized context, as the
  claims do. A tag distinguishes resources; count carries the element count a
  chunked buffer holds (only chunk handles have one in the sources).
-/

structure Handle where
  name : String
  count : Option Nat
  tag : Nat
deriving DecidableEq, Repr

def mouseBuffer : Handle := ⟨"mouse", none, 0⟩
def timeBuffer : Handle := ⟨"time", none, 1⟩
def renderTxtrWrite : Handle := ⟨"renderTxtr", none, 2⟩
def feedbackTxtrRead : Handle := ⟨"feedbackTxtr", none, 3⟩
def noiseBufferH : Handle := ⟨"noiseOffset", none, 4⟩

/-- An entry of the binding list passed to the ComputePass constructor: either a
single resource handle or an array of chunk handles (the split-buffer case). -/
inductive Binding where
  | one : Handle → Binding
  | many : List Handle → Binding
deriving DecidableEq, Repr

/-- The JS de-duplication test reads the name property of each entry; an array
entry has none (undefined), so it never blocks an append. -/
def hasName (bs : List Binding) (nm : String) : Bool :=
  bs.any fun b => match b with
    | .one h => h.name == nm
    | .many _ => false

/-- One step of the auto-binding table walk: append the resource when its
pattern fires and no entry of the current list carries its name. -/
def applyAuto (fires : Bool) (h : Handle) (bs : List Binding) : List Binding :=
  if fires && !hasName bs h.name then bs ++ [Binding.one h] else bs

/-- The separate noise push: fires on the noise-call pattern, appends the
noise-support buffer when it exists, with no de-duplication. -/
def noiseStep (code : String) (noiseBuf : Option Handle) (bs : List Binding) :
    List Binding :=
  if noiseRef code then
    match noiseBuf with
    | some h => bs ++ [Binding.one h]
    | none => bs
  else bs

/-- The finalized binding list: the fixed table (mouse, time, renderTxtr,
feedbackTxtr) in order, each pushed onto the callers list in place, then the
noise-support buffer (when created) with no de-duplication. -/
def finalizeBindings (code : String) (noiseBuf : Option Handle) (bs : List Binding) :
    List Binding :=
  noiseStep code noiseBuf
    (applyAuto (containsWord code "feedbackTxtr") feedbackTxtrRead
      (applyAuto (containsWord code "renderTxtr") renderTxtrWrite
        (applyAuto (containsWord code "time") timeBuffer
          (applyAuto (mousePat code) mouseBuffer bs))))

/-
  Layout Type Registry and Struct Descriptor (struct.js).
-/

/-- JS String.trim restricted to the ASCII whitespace the sources produce. -/
def jsTrimL (l : List Char) : List Char :=
  ((l.dropWhile jsWS).reverse.dropWhile jsWS).reverse

inductive VType where
  | f32 | vec2 | vec3 | vec4 | color
deriving DecidableEq, Repr

def VType.size : VType → Nat
  | .f32 => 4
  | .vec2 => 8
  | .vec3 => 12
  | .vec4 => 16
  | .color => 16

/-- Host-side values: num models a JS number, v2 an object with properties x,y,
v3 with x,y,z, v4 with x,y,z,w, col with r,g,b,a. The scalar domain is a type
parameter: the sources move packed values around without computing on them. -/
inductive HVal (α : Type) where
  | num : α → HVal α
  | v2 : α → α → HVal α
  | v3 : α → α → α → HVal α
  | v4 : α → α → α → α → HVal α
  | col : α → α → α → α → HVal α
deriving DecidableEq, Repr

/-- The per-type pack routine. Shape validation follows the JS property-presence
checks: a v3 or v4 object has x and y, so the vec2 packer accepts it and reads
the first two components; none models the type error throw. Every success
yields exactly size / 4 scalars. -/
def typePack {α : Type} : VType → HVal α → Option (List α)
  | .f32, .num x => some [x]
  | .f32, _ => none
  | .vec2, .v2 x y => some [x, y]
  | .vec2, .v3 x y _ => some [x, y]
  | .vec2, .v4 x y _ _ => some [x, y]
  | .vec2, _ => none
  | .vec3, .v3 x y z => some [x, y, z]
  | .vec3, .v4 x y z _ => some [x, y, z]
  | .vec3, _ => none
  | .vec4, .v4 x y z w => some [x, y, z, w]
  | .vec4, _ => none
  | .color, .col r g b a => some [r, g, b, a]
  | .color, _ => none

/-- The per-type unpack routine, applied to the slice of size / 4 scalars cut
out by the struct-level loop (the length guard there makes the slice exact, so
the catch-all branch is unreachable from fromFloat32Array). -/
def typeUnpack {α : Type} : VType → List α → Option (HVal α)
  | .f32, [x] => some (.num x)
  | .vec2, [x, y] => some (.v2 x y)
  | .vec3, [x, y, z] => some (.v3 x y z)
  | .vec4, [x, y, z, w] => some (.v4 x y z w)
  | .color, [r, g, b, a] => some (.col r g b a)
  | _, _ => none

/-- Value shapes on which a registry type packs and unpacks exactly (the spec
reading of a record matching the field set). -/
def wellTypedB {α : Type} : VType → HVal α → Bool
  | .f32, .num _ => true
  | .vec2, .v2 _ _ => true
  | .vec3, .v3 _ _ _ => true
  | .vec4, .v4 _ _ _ _ => true
  | .color, .col _ _ _ _ => true
  | _, _ => false

structure Field where
  name : String
  type : VType
deriving DecidableEq, Repr

def byteSizeOf (data : List Field) : Nat :=
  (data.map fun f => f.type.size).sum

def floatSizeOf (data : List Field) : Nat := byteSizeOf data / 4

structure Struct where
  name : String
  data : List Field
deriving DecidableEq, Repr

def Struct.byteSize (S : Struct) : Nat := byteSizeOf S.data

def Struct.floatSize (S : Struct) : Nat := S.byteSize / 4

def fillerFields (k : Nat) : List Field :=
  (List.range k).map fun i => ⟨"FILLER___" ++ toString i, VType.f32⟩

/-- The Struct constructor: rejects an empty (after trim) name, then appends
filler scalar fields until the float size is a multiple of 4. none models the
constructor throw for an invalid name. -/
def mkStruct (name : String) (data : List Field) : Option Struct :=
  if jsTrimL name.toList = [] then none
  else if floatSizeOf data % 4 ≠ 0 then
    some ⟨name, data ++ fillerFields (4 - floatSizeOf data % 4)⟩
  else some ⟨name, data⟩

/-- A JS record (object) as an association list in property-insertion order. -/
abbrev Record (α : Type) := List (String × HVal α)

def rlookup {α : Type} (r : Record α) (nm : String) : Option (HVal α) :=
  (r.find? fun p => p.1 == nm).map fun p => p.2

/-- Option-valued map over a list, stopping at the first failure: the shape of
every JS forEach loop whose body can throw. -/
def mapOpt {β γ : Type} (g : β → Option γ) : List β → Option (List γ)
  | [] => some []
  | a :: l =>
    match g a with
    | none => none
    | some b => (mapOpt g l).map fun bs => b :: bs

/-- The inner field loop of toFloat32Array for one record: a missing property
(undefined) or a type-level shape error throws (none). Each field writes
exactly size / 4 scalars at the running offset, so the offset-based writes of
the source amount to concatenation in declaration order. -/
def packFields {α : Type} : List Field → Record α → Option (List α)
  | [], _ => some []
  | f :: rest, val =>
    match rlookup val f.name with
    | none => none
    | some v =>
      match typePack f.type v with
      | none => none
      | some xs => (packFields rest val).map fun ys => xs ++ ys

/-- Struct.toFloat32Array on a list of records (the source normalizes a single
record to a one-element array first). -/
def Struct.toFloat32Array {α : Type} (S : Struct) (vals : List (Record α)) :
    Option (List α) :=
  (mapOpt (packFields S.data) vals).map List.flatten

/-- The inner field loop of fromFloat32Array for one struct: the length guard
throws (none) when fewer than size / 4 scalars remain; property assignments
build the record in declaration order. Returns the record and the rest. -/
def readFields {α : Type} : List Field → List α → Option (Record α × List α)
  | [], arr => some ([], arr)
  | f :: rest, arr =>
    if arr.length < f.type.size / 4 then none
    else
      match typeUnpack f.type (arr.take (f.type.size / 4)) with
      | none => none
      | some v =>
        (readFields rest (arr.drop (f.type.size / 4))).map
          fun p => ((f.name, v) :: p.1, p.2)

/-- The while loop of fromFloat32Array, fueled: the loop runs while scalars
remain. For a struct with no fields and a non-empty array the source loops
forever; exhausted fuel (none) models that divergence, and one unit of fuel
per scalar plus one is enough whenever the struct has a field. -/
def fromLoopF {α : Type} (fields : List Field) : Nat → List α → Option (List (Record α))
  | 0, _ => none
  | _ + 1, [] => some []
  | fuel + 1, a :: rest =>
    match readFields fields (a :: rest) with
    | none => none
    | some (r, rest') => (fromLoopF fields fuel rest').map fun rs => r :: rs

def Struct.fromFloat32Array {α : Type} (S : Struct) (arr : List α) :
    Option (List (Record α)) :=
  fromLoopF S.data (arr.length + 1) arr

/-
  Buffer creation with chunking (Struct.createBuffer).
-/

structure BufferS (α : Type) where
  name : String
  data : List α
  count : Option Nat
  isArray : Bool
deriving DecidableEq, Repr

inductive CreateBufferResult (α : Type) where
  | one : BufferS α → CreateBufferResult α
  | chunks : List (BufferS α) → CreateBufferResult α
deriving DecidableEq, Repr

/-- The argument of createBuffer: one record or an array of records. -/
inductive Vals (α : Type) where
  | single : Record α → Vals α
  | arr : List (Record α) → Vals α

/-- Consecutive slices of at most 65000 records, as produced by the chunking
loop; fueled, one unit per chunk is more than enough at fuel = list length. -/
def chunksOfF {β : Type} : Nat → List β → List (List β)
  | 0, _ => []
  | _, [] => []
  | fuel + 1, a :: l => (a :: l).take 65000 :: chunksOfF fuel ((a :: l).drop 65000)

/-- Struct.createBuffer: a single record packs into one handle; an array packs
into one handle below the 65000-element ceiling (no count property is set on
it in the source) and into chunk handles carrying their own count above it.
none models the throws (empty array, pack failure). -/
def Struct.createBuffer {α : Type} (S : Struct) (nm : String) (v : Vals α) :
    Option (CreateBufferResult α) :=
  match v with
  | .single r => (S.toFloat32Array [r]).map fun d => .one ⟨nm, d, none, false⟩
  | .arr vals =>
    if vals.length < 1 then none
    else if vals.length < 65000 then
      (S.toFloat32Array vals).map fun d => .one ⟨nm, d, none, true⟩
    else
      (mapOpt
          (fun chunk =>
            (S.toFloat32Array chunk).map
              fun d => (⟨nm, d, some chunk.length, true⟩ : BufferS α))
          (chunksOfF vals.length vals)).map
        CreateBufferResult.chunks

/-
  Struct layout lemmas.
-/

/-- Float count of a field list, summed per field. -/
def floatsOf (data : List Field) : Nat :=
  (data.map fun f => f.type.size / 4).sum

lemma four_dvd_size (t : VType) : 4 ∣ t.size := by
  cases t <;> decide

lemma size_div_pos (t : VType) : 0 < t.size / 4 := by
  cases t <;> decide

lemma byteSizeOf_eq (data : List Field) : byteSizeOf data = 4 * floatsOf data := by
  induction data with
  | nil => simp [byteSizeOf, floatsOf]
  | cons f rest ih =>
    obtain ⟨k, hk⟩ := four_dvd_size f.type
    simp only [byteSizeOf, floatsOf, List.map_cons, List.sum_cons] at *
    omega

lemma floatSizeOf_eq (data : List Field) : floatSizeOf data = floatsOf data := by
  simp [floatSizeOf, byteSizeOf_eq]

lemma floatsOf_append (l1 l2 : List Field) :
    floatsOf (l1 ++ l2) = floatsOf l1 + floatsOf l2 := by
  simp [floatsOf]

lemma typePack_wellTyped {α : Type} (t : VType) (v : HVal α)
    (h : wellTypedB t v = true) :
    ∃ xs, typePack t v = some xs ∧ xs.length = t.size / 4 ∧
      typeUnpack t xs = some v := by
  cases t <;> cases v <;> simp_all [wellTypedB, typePack, typeUnpack, VType.size]

lemma typePack_length {α : Type} (t : VType) (v : HVal α) (xs : List α)
    (h : typePack t v = some xs) : xs.length = t.size / 4 := by
  cases t <;> cases v <;>
    (try exact Option.noConfusion h) <;>
    (injection h with h; subst h; simp [VType.size])

lemma rlookup_cons {α : Type} (n : String) (x : HVal α) (r : Record α) (nm : String) :
    rlookup ((n, x) :: r) nm = if n = nm then some x else rlookup r nm := by
  by_cases h : n = nm <;> simp [rlookup, List.find?_cons, h]

lemma rlookup_canonical {α : Type} (fields : List Field) (v : Field → HVal α)
    (hnd : (fields.map Field.name).Nodup) :
    ∀ f ∈ fields, rlookup (fields.map fun g => (g.name, v g)) f.name = some (v f) := by
  induction fields with
  | nil => simp
  | cons g rest ih =>
    intro f hf
    simp only [List.map_cons, List.nodup_cons] at hnd
    rcases List.mem_cons.mp hf with h | h
    · subst h
      simp [rlookup_cons]
    · have hne : g.name ≠ f.name := by
        intro hEq
        exact hnd.1 (hEq ▸ List.mem_map_of_mem Field.name h)
      simp only [List.map_cons, rlookup_cons, if_neg hne]
      exact ih hnd.2 f h

lemma packFields_readFields {α : Type} (fields : List Field) (val : Record α)
    (v : Field → HVal α)
    (hlook : ∀ f ∈ fields, rlookup val f.name = some (v f))
    (hwt : ∀ f ∈ fields, wellTypedB f.type (v f) = true) :
    ∃ xs, packFields fields val = some xs ∧ xs.length = floatsOf fields ∧
      ∀ rest : List α, readFields fields (xs ++ rest) =
        some (fields.map fun f => (f.name, v f), rest) := by
  induction fields with
  | nil =>
    exact ⟨[], rfl, by simp [floatsOf], fun rest => by simp [readFields]⟩
  | cons f fs ih =>
    obtain ⟨xs0, hp, hlen, hun⟩ :=
      typePack_wellTyped f.type (v f) (hwt f (List.mem_cons_self f fs))
    obtain ⟨ys, hpf, hylen, hread⟩ :=
      ih (fun g hg => hlook g (List.mem_cons_of_mem f hg))
        (fun g hg => hwt g (List.mem_cons_of_mem f hg))
    refine ⟨xs0 ++ ys, ?_, ?_, ?_⟩
    · simp [packFields, hlook f (List.mem_cons_self f fs), hp, hpf]
    · simp [floatsOf, hlen, hylen]
    · intro rest
      have hnshort : ¬ (xs0 ++ ys ++ rest).length < f.type.size / 4 := by
        simp [hlen]
      have htake : (xs0 ++ (ys ++ rest)).take (f.type.size / 4) = xs0 := by
        rw [← hlen, List.take_left]
      have hdrop : (xs0 ++ (ys ++ rest)).drop (f.type.size / 4) = ys ++ rest := by
        rw [← hlen, List.drop_left]
      simp only [readFields, List.append_assoc]
      rw [if_neg (by simpa [List.append_assoc] using hnshort), htake, hun, hdrop,
        hread rest]
      simp

lemma packFields_length {α : Type} (fields : List Field) (val : Record α)
    (xs : List α) (h : packFields fields val = some xs) :
    xs.length = floatsOf fields := by
  induction fields generalizing xs with
  | nil => simp [packFields] at h; simp [← h, floatsOf]
  | cons f fs ih =>
    simp only [packFields] at h
    cases hl : rlookup val f.name with
    | none => simp [hl] at h
    | some v =>
      cases hp : typePack f.type v with
      | none => simp [hl, hp] at h
      | some xs0 =>
        cases hrest : packFields fs val with
        | none => simp [hl, hp, hrest] at h
        | some ys =>
          simp [hl, hp, hrest] at h
          subst h
          simp [floatsOf, typePack_length f.type v xs0 hp, ih ys hrest]

lemma mapOpt_cons {β γ : Type} (g : β → Option γ) (x : β) (l : List β) :
    mapOpt g (x :: l) =
      match g x with
      | none => none
      | some b => (mapOpt g l).map fun bs => b :: bs := rfl

lemma mapOpt_append {β γ : Type} (g : β → Option γ) (l1 l2 : List β) :
    mapOpt g (l1 ++ l2) =
      (mapOpt g l1).bind fun a => (mapOpt g l2).map fun b => a ++ b := by
  induction l1 with
  | nil => cases h : mapOpt g l2 <;> simp [mapOpt, h]
  | cons x t ih =>
    simp only [List.cons_append, mapOpt]
    cases g x
    · simp
    · cases h1 : mapOpt g t <;> cases h2 : mapOpt g l2 <;> simp [ih, h1, h2]

lemma mapOpt_flatten_length {α : Type} (fields : List Field)
    (vals : List (Record α)) (ys : List (List α))
    (h : mapOpt (packFields fields) vals = some ys) :
    ys.flatten.length = floatsOf fields * vals.length := by
  induction vals generalizing ys with
  | nil => simp [mapOpt] at h; simp [h]
  | cons r rest ih =>
    simp only [mapOpt] at h
    cases hp : packFields fields r with
    | none => simp [hp] at h
    | some x =>
      cases hrest : mapOpt (packFields fields) rest with
      | none => simp [hp, hrest] at h
      | some ys' =>
        simp [hp, hrest] at h
        subst h
        simp [packFields_length fields r x hp, ih ys' hrest, Nat.mul_succ]
        omega

lemma toFloat32Array_length {α : Type} (S : Struct) (vals : List (Record α))
    (d : List α) (h : S.toFloat32Array vals = some d) :
    d.length = floatsOf S.data * vals.length := by
  simp only [Struct.toFloat32Array] at h
  cases hm : mapOpt (packFields S.data) vals with
  | none => simp [hm] at h
  | some ys =>
    simp [hm] at h
    subst h
    exact mapOpt_flatten_length S.data vals ys hm

lemma mkStruct_nopad (nm : String) (fields : List Field) (S : Struct)
    (h : mkStruct nm fields = some S) (hpad : floatSizeOf fields % 4 = 0) :
    S.data = fields := by
  by_cases ht : jsTrimL nm.toList = []
  · rw [mkStruct, if_pos ht] at h
    exact Option.noConfusion h
  · rw [mkStruct, if_neg ht, if_neg (by omega)] at h
    cases h
    rfl

lemma mkStruct_pad (nm : String) (fields : List Field) (S : Struct)
    (h : mkStruct nm fields = some S) (hpad : floatSizeOf fields % 4 ≠ 0) :
    S.data = fields ++ fillerFields (4 - floatSizeOf fields % 4) := by
  by_cases ht : jsTrimL nm.toList = []
  · rw [mkStruct, if_pos ht] at h
    exact Option.noConfusion h
  · rw [mkStruct, if_neg ht, if_pos hpad] at h
    cases h
    rfl

/-- Claim C1 counterexample. The claim quantifies over records carrying exactly
the declared non-padding fields. For a struct with one scalar field the
constructor appends three filler fields; packing such a record then throws on
the first missing filler field, so no unpacked one-element sequence exists;
moreover unpacking a packed layout emits the filler fields into the record. -/
theorem C1_counterexample :
    ((mkStruct "P" [⟨"x", VType.f32⟩]).bind fun S =>
        S.toFloat32Array (α := Nat) [[("x", HVal.num 1)]]) = none ∧
    ((mkStruct "P" [⟨"x", VType.f32⟩]).bind fun S =>
        (S.fromFloat32Array ([5, 6, 7, 8] : List Nat)).map fun rs =>
          rs.map fun r => r.map Prod.fst) =
      some [["x", "FILLER___0", "FILLER___1", "FILLER___2"]] := by
  constructor <;> rfl

/-- Claim C1 (amended): for a struct whose field list needs no padding, packing
a record that carries exactly the declared fields with well-typed values and
unpacking the result yields exactly that one record back; with padding the
record must also carry the filler fields (see the counterexample). -/
theorem C1_roundtrip_amended {α : Type} (nm : String) (fields : List Field)
    (S : Struct) (v : Field → HVal α)
    (hS : mkStruct nm fields = some S)
    (hpad : floatSizeOf fields % 4 = 0)
    (hne : fields ≠ [])
    (hnd : (fields.map Field.name).Nodup)
    (hwt : ∀ f ∈ fields, wellTypedB f.type (v f) = true) :
    ∃ flat, S.toFloat32Array [fields.map fun f => (f.name, v f)] = some flat ∧
      S.fromFloat32Array flat = some [fields.map fun f => (f.name, v f)] := by
  have hdata := mkStruct_nopad nm fields S hS hpad
  obtain ⟨xs, hp, hlen, hread⟩ :=
    packFields_readFields fields (fields.map fun f => (f.name, v f)) v
      (rlookup_canonical fields v hnd) hwt
  have hxs : xs ≠ [] := by
    intro hnil
    cases fields with
    | nil => exact hne rfl
    | cons f fs =>
      have : 0 < floatsOf (f :: fs) := by
        have := size_div_pos f.type
        simp [floatsOf]
        omega
      rw [← hlen, hnil] at this
      simp at this
  refine ⟨xs, ?_, ?_⟩
  · simp [Struct.toFloat32Array, hdata, mapOpt, hp]
  · obtain ⟨a, t, rfl⟩ : ∃ a t, xs = a :: t := by
      cases xs with
      | nil => exact absurd rfl hxs
      | cons a t => exact ⟨a, t, rfl⟩
    have hr := hread []
    simp only [List.append_nil] at hr
    simp only [Struct.fromFloat32Array, hdata, List.length_cons]
    show fromLoopF fields (t.length + 1 + 1) (a :: t) = _
    rw [fromLoopF, hr]
    show (fromLoopF fields (t.length + 1) []).map _ = _
    rw [fromLoopF.eq_def]
    simp

/-- Claim C1 amended, witness at a one-field vec4 struct over Nat scalars. -/
theorem C1_roundtrip_amended_witness :
    ∃ flat,
      Struct.toFloat32Array ⟨"P", [⟨"p", VType.vec4⟩]⟩
          [[("p", HVal.v4 (1 : Nat) 2 3 4)]] = some flat ∧
      Struct.fromFloat32Array ⟨"P", [⟨"p", VType.vec4⟩]⟩ flat =
        some [[("p", HVal.v4 (1 : Nat) 2 3 4)]] :=
  C1_roundtrip_amended "P" [⟨"p", VType.vec4⟩] ⟨"P", [⟨"p", VType.vec4⟩]⟩
    (fun _ => HVal.v4 1 2 3 4) (by decide) (by decide) (by decide) (by decide)
    (by decide)

/-
  Chunking lemmas and claim C3.
-/

lemma chunksOfF_nil {β : Type} (fuel : Nat) : chunksOfF (β := β) fuel [] = [] := by
  cases fuel <;> rfl

lemma chunksOfF_spec {β : Type} :
    ∀ (fuel : Nat) (l : List β), l.length ≤ fuel →
      (chunksOfF fuel l).flatten = l ∧
      (∀ c ∈ chunksOfF fuel l, c ≠ [] ∧ c.length ≤ 65000) ∧
      ((chunksOfF fuel l).map List.length).sum = l.length := by
  intro fuel
  induction fuel with
  | zero =>
    intro l hl
    have : l = [] := List.eq_nil_of_length_eq_zero (Nat.le_zero.mp hl)
    subst this
    simp [chunksOfF]
  | succ f ih =>
    intro l hl
    cases l with
    | nil => simp [chunksOfF]
    | cons a t =>
      have hdl : ((a :: t).drop 65000).length ≤ f := by
        simp [List.length_drop] at *
        omega
      obtain ⟨h1, h2, h3⟩ := ih _ hdl
      refine ⟨?_, ?_, ?_⟩
      · simp only [chunksOfF, List.flatten_cons, h1, List.take_append_drop]
      · intro c hc
        simp only [chunksOfF, List.mem_cons] at hc
        rcases hc with rfl | hc
        · refine ⟨List.ne_nil_of_length_pos ?_, ?_⟩
          · simp [List.length_take]
          · simp [List.length_take]
        · exact h2 c hc
      · simp only [chunksOfF, List.map_cons, List.sum_cons, h3]
        simp [List.length_take, List.length_drop]
        omega

lemma chunksOfF_count {β : Type} :
    ∀ (fuel : Nat) (l : List β), l.length ≤ fuel → l ≠ [] →
      (chunksOfF fuel l).length = (l.length + 64999) / 65000 := by
  intro fuel
  induction fuel with
  | zero =>
    intro l hl hne
    exact absurd (List.eq_nil_of_length_eq_zero (Nat.le_zero.mp hl)) hne
  | succ f ih =>
    intro l hl hne
    cases l with
    | nil => exact absurd rfl hne
    | cons a t =>
      by_cases hbig : (a :: t).length ≤ 65000
      · have hdrop : (a :: t).drop 65000 = [] := List.drop_eq_nil_of_le hbig
        simp only [chunksOfF, hdrop, chunksOfF_nil]
        simp at hbig ⊢
        omega
      · have hdl : ((a :: t).drop 65000).length ≤ f := by
          simp [List.length_drop] at *
          omega
        have hdne : (a :: t).drop 65000 ≠ [] := by
          refine List.ne_nil_of_length_pos ?_
          simp [List.length_drop] at *
          omega
        simp only [chunksOfF, List.length_cons, ih _ hdl hdne]
        simp [List.length_drop] at *
        omega

lemma Struct.floatSize_eq (S : Struct) : S.floatSize = floatsOf S.data := by
  simp [Struct.floatSize, Struct.byteSize, byteSizeOf_eq]

lemma chunksPack_spec {α : Type} (S : Struct) (nm : String) :
    ∀ (fuel : Nat) (l : List (Record α)) (ys : List (List α)),
      l.length ≤ fuel → mapOpt (packFields S.data) l = some ys →
      ∃ bs,
        mapOpt
            (fun chunk =>
              (S.toFloat32Array chunk).map
                fun d => (⟨nm, d, some chunk.length, true⟩ : BufferS α))
            (chunksOfF fuel l) = some bs ∧
        bs.length = (chunksOfF fuel l).length ∧
        (bs.map fun b => b.count.getD 0).sum = l.length ∧
        ∀ b ∈ bs, ∃ k, b.count = some k ∧ 0 < k ∧ k ≤ 65000 ∧
          b.data.length = floatsOf S.data * k := by
  intro fuel
  induction fuel with
  | zero =>
    intro l ys hl _
    have : l = [] := List.eq_nil_of_length_eq_zero (Nat.le_zero.mp hl)
    subst this
    exact ⟨[], by simp [chunksOfF, mapOpt], by simp [chunksOfF], by simp, by simp⟩
  | succ f ih =>
    intro l ys hl hpack
    cases l with
    | nil =>
      exact ⟨[], by simp [chunksOfF_nil, mapOpt], by simp [chunksOfF_nil], by simp,
        by simp⟩
    | cons a t =>
      have hsplit := mapOpt_append (packFields S.data)
        ((a :: t).take 65000) ((a :: t).drop 65000)
      rw [List.take_append_drop, hpack] at hsplit
      cases h1 : mapOpt (packFields S.data) ((a :: t).take 65000) with
      | none => rw [h1] at hsplit; simp at hsplit
      | some y1 =>
        cases h2 : mapOpt (packFields S.data) ((a :: t).drop 65000) with
        | none => rw [h1, h2] at hsplit; simp at hsplit
        | some y2 =>
          have hdl : ((a :: t).drop 65000).length ≤ f := by
            simp [List.length_drop] at *
            omega
          obtain ⟨bs', hbs', hlen', hsum', hall'⟩ := ih _ y2 hdl h2
          refine ⟨⟨nm, y1.flatten, some ((a :: t).take 65000).length, true⟩ :: bs',
            ?_, ?_, ?_, ?_⟩
          · have hc : S.toFloat32Array ((a :: t).take 65000) = some y1.flatten := by
              rw [Struct.toFloat32Array, h1]
              rfl
            rw [show chunksOfF (f + 1) (a :: t) =
                (a :: t).take 65000 :: chunksOfF f ((a :: t).drop 65000) from rfl,
              mapOpt_cons, hc]
            simp only [Option.map_some']
            rw [hbs']
            rfl
          · simp only [chunksOfF]
            simp [hlen']
          · simp only [List.map_cons, List.sum_cons, hsum']
            simp [List.length_take, List.length_drop]
            omega
          · intro b hb
            rcases List.mem_cons.mp hb with rfl | hb
            · refine ⟨((a :: t).take 65000).length, rfl, ?_, ?_, ?_⟩
              · simp [List.length_take]
              · simp [List.length_take]
              · exact mapOpt_flatten_length S.data _ y1 h1
            · exact hall' b hb

/-- Claim C3: createBuffer on a packable non-empty array of N records returns
one handle holding N records worth of data when N is below the 65000 ceiling,
and ceil(N / 65000) chunk handles, each of at most 65000 records and carrying
its own count, whose counts sum to N, when N is at or above it. -/
theorem C3_createBuffer_chunking {α : Type} (S : Struct) (nm : String)
    (vals : List (Record α)) (d : List α)
    (hpack : S.toFloat32Array vals = some d) (hpos : 0 < vals.length) :
    (vals.length < 65000 →
      ∃ b, S.createBuffer nm (.arr vals) = some (.one b) ∧
        b.data.length = S.floatSize * vals.length ∧
        (0 < S.floatSize → b.data.length / S.floatSize = vals.length)) ∧
    (65000 ≤ vals.length →
      ∃ bs, S.createBuffer nm (.arr vals) = some (.chunks bs) ∧
        bs.length = (vals.length + 64999) / 65000 ∧
        (bs.map fun b => b.count.getD 0).sum = vals.length ∧
        ∀ b ∈ bs, ∃ k, b.count = some k ∧ 0 < k ∧ k ≤ 65000 ∧
          b.data.length = S.floatSize * k) := by
  constructor
  · intro hsmall
    refine ⟨⟨nm, d, none, true⟩, ?_, ?_, ?_⟩
    · simp only [Struct.createBuffer]
      rw [if_neg (by omega), if_pos hsmall, hpack]
      rfl
    · rw [toFloat32Array_length S vals d hpack, Struct.floatSize_eq]
    · intro hf
      rw [toFloat32Array_length S vals d hpack, Struct.floatSize_eq,
        Nat.mul_div_cancel_left]
      rw [Struct.floatSize_eq] at hf
      omega
  · intro hbig
    simp only [Struct.toFloat32Array] at hpack
    cases hm : mapOpt (packFields S.data) vals with
    | none => rw [hm] at hpack; simp at hpack
    | some ys =>
      obtain ⟨bs, hbs, hlen, hsum, hall⟩ :=
        chunksPack_spec S nm vals.length vals ys (le_refl _) hm
      refine ⟨bs, ?_, ?_, hsum, ?_⟩
      · simp only [Struct.createBuffer]
        rw [if_neg (by omega), if_neg (by omega), hbs]
        rfl
      · rw [hlen, chunksOfF_count vals.length vals (le_refl _)
          (List.ne_nil_of_length_pos hpos)]
      · intro b hb
        obtain ⟨k, h1, h2, h3, h4⟩ := hall b hb
        exact ⟨k, h1, h2, h3, by rw [Struct.floatSize_eq]; exact h4⟩

/-- Claim C3, witness at a two-record array over a one-field struct. -/
theorem C3_createBuffer_chunking_witness :
    ∃ b, Struct.createBuffer ⟨"P", [⟨"x", VType.f32⟩]⟩ "b"
        (Vals.arr [[("x", HVal.num (1 : Nat))], [("x", HVal.num 2)]]) =
        some (.one b) ∧
      b.data.length = (⟨"P", [⟨"x", VType.f32⟩]⟩ : Struct).floatSize * 2 ∧
      (0 < (⟨"P", [⟨"x", VType.f32⟩]⟩ : Struct).floatSize →
        b.data.length / (⟨"P", [⟨"x", VType.f32⟩]⟩ : Struct).floatSize = 2) :=
  (C3_createBuffer_chunking ⟨"P", [⟨"x", VType.f32⟩]⟩ "b"
    [[("x", HVal.num (1 : Nat))], [("x", HVal.num 2)]] [1, 2]
    (by decide) (by decide)).1 (by decide)

/-
  Claim C8: padding invariant.
-/

lemma byteSizeOf_append (l1 l2 : List Field) :
    byteSizeOf (l1 ++ l2) = byteSizeOf l1 + byteSizeOf l2 := by
  simp [byteSizeOf]

lemma byteSizeOf_filler (k : Nat) : byteSizeOf (fillerFields k) = 4 * k := by
  induction k with
  | zero => rfl
  | succ m ih =>
    have h : fillerFields (m + 1) =
        fillerFields m ++ [⟨"FILLER___" ++ toString m, VType.f32⟩] := by
      simp [fillerFields, List.range_succ]
    rw [h, byteSizeOf_append, ih]
    simp only [byteSizeOf, List.map_cons, List.map_nil, List.sum_cons,
      List.sum_nil, VType.size]
    omega

lemma fillerFields_prefix (k : Nat) :
    ∀ g ∈ fillerFields k, "FILLER___".toList <+: g.name.toList := by
  intro g hg
  simp only [fillerFields, List.mem_map] at hg
  obtain ⟨i, _, rfl⟩ := hg
  show "FILLER___".toList <+: ("FILLER___".toList ++ (toString i).toList)
  exact List.prefix_append _ _

/-- Claim C8 counterexample: the filler prefix is a legal identifier prefix, so
a user field named FILLER___0 collides with an appended padding field; the
constructed field list then carries a duplicate name. -/
theorem C8_counterexample :
    (mkStruct "S" [⟨"FILLER___0", VType.f32⟩]).map (fun S => S.data.map Field.name) =
      some ["FILLER___0", "FILLER___0", "FILLER___1", "FILLER___2"] ∧
    ¬ (["FILLER___0", "FILLER___0", "FILLER___1", "FILLER___2"] : List String).Nodup := by
  constructor
  · rfl
  · decide

/-- Claim C8 (amended): after construction from a field list the byte size is a
multiple of 16, with exactly 4 - sizeFloats mod 4 filler scalar fields appended
when sizeFloats mod 4 is non-zero; the filler names carry the fixed FILLER___
prefix, which avoids collision only when no user field name starts with it. -/
theorem C8_padding_amended (nm : String) (fields : List Field) (S : Struct)
    (hS : mkStruct nm fields = some S) :
    S.byteSize % 16 = 0 ∧
    (floatSizeOf fields % 4 = 0 → S.data = fields) ∧
    (floatSizeOf fields % 4 ≠ 0 →
      S.data = fields ++ fillerFields (4 - floatSizeOf fields % 4) ∧
      S.data.length = fields.length + (4 - floatSizeOf fields % 4)) ∧
    ((∀ f ∈ fields, ¬ ("FILLER___".toList <+: f.name.toList)) →
      ∀ g ∈ fillerFields (4 - floatSizeOf fields % 4), ∀ f ∈ fields,
        g.name ≠ f.name) := by
  refine ⟨?_, mkStruct_nopad nm fields S hS, ?_, ?_⟩
  · by_cases hp : floatSizeOf fields % 4 = 0
    · rw [Struct.byteSize, mkStruct_nopad nm fields S hS hp, byteSizeOf_eq]
      rw [floatSizeOf_eq] at hp
      omega
    · rw [Struct.byteSize, mkStruct_pad nm fields S hS hp, byteSizeOf_append,
        byteSizeOf_filler, byteSizeOf_eq]
      rw [floatSizeOf_eq] at hp ⊢
      have := Nat.mod_lt (floatsOf fields) (show 0 < 4 by omega)
      omega
  · intro hp
    refine ⟨mkStruct_pad nm fields S hS hp, ?_⟩
    rw [mkStruct_pad nm fields S hS hp]
    simp [fillerFields]
  · intro hpref g hg f hf heq
    exact hpref f hf (heq ▸ fillerFields_prefix _ g hg)

/-- Claim C8 amended, witness at a one-scalar struct (three fillers appended). -/
theorem C8_padding_amended_witness :
    (⟨"S", [⟨"a", VType.f32⟩, ⟨"FILLER___0", VType.f32⟩, ⟨"FILLER___1", VType.f32⟩,
        ⟨"FILLER___2", VType.f32⟩]⟩ : Struct).byteSize % 16 = 0 :=
  (C8_padding_amended "S" [⟨"a", VType.f32⟩]
    ⟨"S", [⟨"a", VType.f32⟩, ⟨"FILLER___0", VType.f32⟩, ⟨"FILLER___1", VType.f32⟩,
      ⟨"FILLER___2", VType.f32⟩]⟩ (by rfl)).1

/-
  ComputePass construction: auto-binding (already embedded above as
  finalizeBindings) followed by the fan-out over a split-buffer entry. The
  recursive constructor call is fueled; one extra unit per array entry is
  enough, and the claims use concrete fuel. Device-side pipeline and bind-group
  creation are external collaborators and are not part of the embedding; a
  constructed pass is its finalized binding list plus its normalized dispatch
  size (the source wraps a bare number into a one-element array, and the
  fan-out passes the chunk count through that wrapping).
-/

def isMany : Binding → Bool
  | .many _ => true
  | .one _ => false

structure PassObj where
  bindings : List Binding
  dispatch : List (Option Nat)
deriving DecidableEq, Repr

inductive PassResult where
  | pass : PassObj → PassResult
  | group : List PassResult → PassResult

/-- One constructor body, parametric in the recursive call. The source uses
find plus findIndex on the same predicate; both refer to the first array
entry, so the embedding looks the entry up by its index. -/
def constructPassStep (recurse : List Binding → List (Option Nat) → Option PassResult)
    (code : String) (noiseBuf : Option Handle) (bindings : List Binding)
    (dispatch : List (Option Nat)) : Option PassResult :=
  match (finalizeBindings code noiseBuf bindings).findIdx? isMany with
  | some i =>
    match (finalizeBindings code noiseBuf bindings)[i]? with
    | some (.many hs) =>
      (mapOpt
        (fun h => recurse ((finalizeBindings code noiseBuf bindings).set i (.one h))
          [h.count])
        hs).map .group
    | _ => some (.pass ⟨finalizeBindings code noiseBuf bindings, dispatch⟩)
  | none => some (.pass ⟨finalizeBindings code noiseBuf bindings, dispatch⟩)

/-- The ComputePass constructor: auto-binding, then fan-out with a recursive
construction per chunk handle. -/
def constructPass : Nat → String → Option Handle → List Binding → List (Option Nat) →
    Option PassResult
  | 0, _, _, _, _ => none
  | fuel + 1, code, noiseBuf, bindings, dispatch =>
    constructPassStep (constructPass fuel code noiseBuf) code noiseBuf bindings dispatch

/-
  runPasses: one command encoder, every pass recorded into it in order, one
  queue submission at the end. A trace of device operations makes the single
  submission observable. The source normalizes a bare pass to a one-element
  list and rejects entries without a run method; the typed embedding takes the
  normalized list of valid passes and keeps the device-readiness check.
-/

inductive RPItem (P : Type) where
  | one : P → RPItem P
  | arr : List P → RPItem P
deriving DecidableEq, Repr

inductive DevOp (P : Type) where
  | record : P → DevOp P
  | submit : DevOp P
deriving DecidableEq, Repr

def flattenPasses {P : Type} (passes : List (RPItem P)) : List P :=
  passes.flatMap fun it =>
    match it with
    | .one p => [p]
    | .arr ps => ps

def runPasses {P : Type} (deviceReady : Bool) (passes : List (RPItem P))
    (repeats : Nat) : Except String (List (DevOp P)) :=
  if deviceReady then
    .ok ((List.replicate repeats (flattenPasses passes)).flatten.map DevOp.record
      ++ [DevOp.submit])
  else
    .error "runPasses: WebGPU device not initialized. Call initCanvas() first."

/-
  Buffer.update (core.js): queues one host-to-device write at offset zero and
  replaces the host copy. The source validates only that the argument is an
  Array or Float32Array (excluded by typing here); it never compares the new
  length with the allocated size, and never reallocates.
-/

structure BufferC (α : Type) where
  name : String
  size : Nat
  data : List α
  writes : List (List α)
deriving DecidableEq, Repr

/-- The Buffer constructor: allocation sized to the byte length of the data
(4 bytes per packed scalar); initial contents go through the mapped range, not
the write queue. -/
def BufferC.mkBuf {α : Type} (nm : String) (d : List α) : BufferC α :=
  ⟨nm, 4 * d.length, d, []⟩

def BufferC.update {α : Type} (b : BufferC α) (d : List α) : BufferC α :=
  { b with data := d, writes := b.writes ++ [d] }

/-
  Auto-binding lemmas.
-/

lemma hasName_append (l1 l2 : List Binding) (nm : String) :
    hasName (l1 ++ l2) nm = (hasName l1 nm || hasName l2 nm) := by
  simp [hasName, List.any_append]

lemma applyAuto_of_hasName (fires : Bool) (h : Handle) (bs : List Binding)
    (hn : hasName bs h.name = true) : applyAuto fires h bs = bs := by
  simp [applyAuto, hn]

lemma applyAuto_append (h : Handle) (bs : List Binding)
    (hn : hasName bs h.name = false) : applyAuto true h bs = bs ++ [.one h] := by
  simp [applyAuto, hn]

lemma applyAuto_skip (fires : Bool) (h : Handle) (bs : List Binding)
    (himp : fires = true → hasName bs h.name = true) : applyAuto fires h bs = bs := by
  by_cases hf : fires = true
  · exact applyAuto_of_hasName fires h bs (himp hf)
  · have hf' : fires = false := by simpa using hf
    simp [applyAuto, hf']

lemma applyAuto_eq_or (fires : Bool) (h : Handle) (bs : List Binding) :
    applyAuto fires h bs = bs ∨
      (fires = true ∧ hasName bs h.name = false ∧
        applyAuto fires h bs = bs ++ [Binding.one h]) := by
  by_cases hc : (fires && !hasName bs h.name) = true
  · right
    rw [Bool.and_eq_true, Bool.not_eq_true'] at hc
    exact ⟨hc.1, hc.2, by simp [applyAuto, hc.1, hc.2]⟩
  · left
    simp only [applyAuto]
    rw [if_neg hc]

lemma hasName_applyAuto_mono (fires : Bool) (h' : Handle) (bs : List Binding)
    (nm : String) (hn : hasName bs nm = true) :
    hasName (applyAuto fires h' bs) nm = true := by
  rcases applyAuto_eq_or fires h' bs with he | ⟨_, _, he⟩ <;>
    simp [he, hasName_append, hn]

lemma hasName_applyAuto_post (fires : Bool) (h' : Handle) (bs : List Binding)
    (hf : fires = true) : hasName (applyAuto fires h' bs) h'.name = true := by
  subst hf
  by_cases hn : hasName bs h'.name = true
  · rw [applyAuto_of_hasName true h' bs hn]
    exact hn
  · rw [applyAuto_append h' bs (by simpa using hn), hasName_append]
    simp [hasName]

lemma hasName_noiseStep_mono (code : String) (nb : Option Handle)
    (bs : List Binding) (nm : String) (hn : hasName bs nm = true) :
    hasName (noiseStep code nb bs) nm = true := by
  unfold noiseStep
  split
  · cases nb <;> simp [hasName_append, hn]
  · exact hn

lemma mem_applyAuto_elim {x : Binding} (fires : Bool) (h : Handle)
    (bs : List Binding) (hx : x ∈ applyAuto fires h bs) :
    x ∈ bs ∨ (fires = true ∧ x = Binding.one h) := by
  rcases applyAuto_eq_or fires h bs with he | ⟨hf, _, he⟩
  · rw [he] at hx
    exact Or.inl hx
  · rw [he] at hx
    rcases List.mem_append.mp hx with hx | hx
    · exact Or.inl hx
    · exact Or.inr ⟨hf, by simpa using hx⟩

lemma mem_applyAuto_of_mem {x : Binding} (fires : Bool) (h : Handle)
    (bs : List Binding) (hx : x ∈ bs) : x ∈ applyAuto fires h bs := by
  rcases applyAuto_eq_or fires h bs with he | ⟨_, _, he⟩ <;> simp [he, hx]

lemma count_applyAuto_le (fires : Bool) (h : Handle) (bs : List Binding)
    (x : Binding) :
    (applyAuto fires h bs).count x ≤ bs.count x + 1 := by
  rcases applyAuto_eq_or fires h bs with he | ⟨_, _, he⟩ <;> rw [he]
  · omega
  · rw [List.count_append]
    have : List.count x [Binding.one h] ≤ 1 := by
      by_cases hx : Binding.one h = x <;> simp [List.count_cons, hx]
    omega

lemma count_applyAuto_ne (fires : Bool) (h : Handle) (bs : List Binding)
    (x : Binding) (hne : Binding.one h ≠ x) :
    (applyAuto fires h bs).count x = bs.count x := by
  rcases applyAuto_eq_or fires h bs with he | ⟨_, _, he⟩ <;> rw [he]
  rw [List.count_append]
  simp [List.count_cons, hne]

/-
  The mouse pattern is equivalent to the bare whole-word mouse pattern: the
  optional member-access group is followed by a word boundary, and when the
  group matches, a dot directly follows the bare name, which is itself a word
  boundary.
-/

lemma mouseMatchHere_eq (cs : List Char) :
    mouseMatchHere cs = wordMatchHere cs "mouse".toList := by
  unfold mouseMatchHere wordMatchHere
  cases hp : "mouse".toList.isPrefixOf cs
  · simp
  · simp only [Bool.true_and]
    show (wordEndsAt (cs.drop 5) || _ || _) = wordEndsAt (cs.drop 5)
    cases hrest : cs.drop 5 with
    | nil => rfl
    | cons c rest' =>
      by_cases hc : c = '.'
      · subst hc
        simp [wordEndsAt, isWordChar]
      · have hbeq : (('.' : Char) == c) = false := by
          simp
          exact Ne.symm hc
        simp [List.isPrefixOf, hbeq]

lemma mousePatAux_eq (cs : List Char) :
    ∀ prev, mousePatAux prev cs = containsWordAux prev cs "mouse".toList := by
  induction cs with
  | nil => intro prev; rfl
  | cons c rest ih =>
    intro prev
    unfold mousePatAux containsWordAux
    rw [mouseMatchHere_eq, ih]

/-
  Claim C2.
-/

/-- Claim C2: with an initialized context, a source text whose only auto-binding
trigger is the bare word time finalizes an empty explicit list to exactly the
clock buffer at slot 0; the mouse pattern fires exactly when the bare
whole-word mouse pattern fires (so mouse.pos behaves as bare mouse); the
pointer-state entry is appended at most once; and the clock entry appears only
on a word-boundary match (never on a partial-identifier match). -/
theorem C2_auto_bindings :
    (∀ (code : String) (noiseBuf : Option Handle),
      containsWord code "time" = true →
      mousePat code = false →
      containsWord code "renderTxtr" = false →
      containsWord code "feedbackTxtr" = false →
      noiseRef code = false →
      finalizeBindings code noiseBuf [] = [Binding.one timeBuffer]) ∧
    (∀ code : String, mousePat code = containsWord code "mouse") ∧
    (∀ (code : String) (noiseBuf : Option Handle) (bs : List Binding),
      noiseBuf ≠ some mouseBuffer →
      (finalizeBindings code noiseBuf bs).count (Binding.one mouseBuffer) ≤
        bs.count (Binding.one mouseBuffer) + 1) ∧
    (∀ (code : String) (noiseBuf : Option Handle) (bs : List Binding),
      noiseBuf ≠ some timeBuffer →
      Binding.one timeBuffer ∈ finalizeBindings code noiseBuf bs →
      containsWord code "time" = true ∨ Binding.one timeBuffer ∈ bs) := by
  refine ⟨?_, ?_, ?_, ?_⟩
  · intro code noiseBuf htime hmouse hrender hfeedback hnoise
    unfold finalizeBindings noiseStep
    rw [htime, hmouse, hrender, hfeedback, hnoise]
    simp [applyAuto, hasName]
  · intro code
    exact mousePatAux_eq code.toList none
  · intro code noiseBuf bs hnb
    unfold finalizeBindings
    set b1 := applyAuto (mousePat code) mouseBuffer bs with hb1
    set b2 := applyAuto (containsWord code "time") timeBuffer b1 with hb2
    set b3 := applyAuto (containsWord code "renderTxtr") renderTxtrWrite b2 with hb3
    set b4 := applyAuto (containsWord code "feedbackTxtr") feedbackTxtrRead b3 with hb4
    have h1 := count_applyAuto_le (mousePat code) mouseBuffer bs
      (Binding.one mouseBuffer)
    have h2 := count_applyAuto_ne (containsWord code "time") timeBuffer b1
      (Binding.one mouseBuffer) (by decide)
    have h3 := count_applyAuto_ne (containsWord code "renderTxtr") renderTxtrWrite b2
      (Binding.one mouseBuffer) (by decide)
    have h4 := count_applyAuto_ne (containsWord code "feedbackTxtr") feedbackTxtrRead b3
      (Binding.one mouseBuffer) (by decide)
    rw [← hb1] at h1
    rw [← hb2] at h2
    rw [← hb3] at h3
    rw [← hb4] at h4
    unfold noiseStep
    split
    · cases hnbv : noiseBuf with
      | none =>
        show List.count (Binding.one mouseBuffer) b4 ≤ _
        omega
      | some h =>
        show List.count (Binding.one mouseBuffer) (b4 ++ [Binding.one h]) ≤ _
        rw [List.count_append]
        have hne : Binding.one h ≠ Binding.one mouseBuffer := by
          intro he
          apply hnb
          rw [hnbv]
          cases he
          rfl
        simp [List.count_cons, hne]
        omega
    · omega
  · intro code noiseBuf bs hnb hmem
    unfold finalizeBindings noiseStep at hmem
    have hstep : Binding.one timeBuffer ∈
        applyAuto (containsWord code "feedbackTxtr") feedbackTxtrRead
          (applyAuto (containsWord code "renderTxtr") renderTxtrWrite
            (applyAuto (containsWord code "time") timeBuffer
              (applyAuto (mousePat code) mouseBuffer bs))) := by
      revert hmem
      split
      · cases hnbv : noiseBuf with
        | none => exact id
        | some h =>
          intro hmem
          rcases List.mem_append.mp hmem with hmem | hmem
          · exact hmem
          · exfalso
            apply hnb
            rw [hnbv]
            simp at hmem
            rw [hmem]
      · exact id
    rcases mem_applyAuto_elim _ _ _ hstep with hstep | ⟨_, habs⟩
    swap
    · exact absurd habs (by decide)
    rcases mem_applyAuto_elim _ _ _ hstep with hstep | ⟨_, habs⟩
    swap
    · exact absurd habs (by decide)
    rcases mem_applyAuto_elim _ _ _ hstep with hstep | ⟨hf, _⟩
    swap
    · exact Or.inl hf
    rcases mem_applyAuto_elim _ _ _ hstep with hstep | ⟨_, habs⟩
    · exact Or.inr hstep
    · exact absurd habs (by decide)

/-- Claim C2, witness at a text whose only trigger is the bare word time. -/
theorem C2_auto_bindings_witness :
    finalizeBindings "a = time;" (some noiseBufferH) [] = [Binding.one timeBuffer] :=
  C2_auto_bindings.1 "a = time;" (some noiseBufferH) (by decide) (by decide)
    (by decide) (by decide) (by decide)

/-
  Claim C10: the constructor grows the callers binding list in place. The pure
  embedding renders the in-place push as the constructor returning the grown
  list: the callers list is a prefix of the finalized one, fired resources are
  appended to it, and a second construction that receives the grown list starts
  from it (re-running the table adds nothing thanks to the name
  de-duplication; only the noise push, which has no de-duplication, can grow
  the list again, hence the noise-free idempotence statement).
-/

lemma prefix_applyAuto (fires : Bool) (h : Handle) (bs : List Binding) :
    bs <+: applyAuto fires h bs := by
  rcases applyAuto_eq_or fires h bs with he | ⟨_, _, he⟩
  · rw [he]
  · rw [he]
    exact List.prefix_append bs _

lemma prefix_noiseStep (code : String) (nb : Option Handle) (bs : List Binding) :
    bs <+: noiseStep code nb bs := by
  unfold noiseStep
  split
  · cases nb
    · exact List.prefix_refl bs
    · exact List.prefix_append bs _
  · exact List.prefix_refl bs

lemma mem_noiseStep_of_mem {x : Binding} (code : String) (nb : Option Handle)
    (bs : List Binding) (hx : x ∈ bs) : x ∈ noiseStep code nb bs :=
  (prefix_noiseStep code nb bs).subset hx

/-- Claim C10: the finalized list extends the callers list in place (prefix);
a fired clock trigger appends the clock entry; a noise reference appends the
noise-support buffer at the end with no de-duplication; and re-finalizing an
already-finalized list (the callers reused array object) changes nothing when
the noise push does not fire again. -/
theorem C10_bindings_growth :
    (∀ (code : String) (noiseBuf : Option Handle) (bs : List Binding),
      bs <+: finalizeBindings code noiseBuf bs) ∧
    (∀ (code : String) (noiseBuf : Option Handle) (bs : List Binding),
      containsWord code "time" = true → hasName bs "time" = false →
      Binding.one timeBuffer ∈ finalizeBindings code noiseBuf bs) ∧
    (∀ (code : String) (h : Handle) (bs : List Binding),
      noiseRef code = true →
      ∃ l, finalizeBindings code (some h) bs = l ++ [Binding.one h]) ∧
    (∀ (code : String) (bs : List Binding),
      finalizeBindings code none (finalizeBindings code none bs) =
        finalizeBindings code none bs) := by
  refine ⟨?_, ?_, ?_, ?_⟩
  · intro code noiseBuf bs
    exact ((((prefix_applyAuto _ mouseBuffer bs).trans
      (prefix_applyAuto _ timeBuffer _)).trans
      (prefix_applyAuto _ renderTxtrWrite _)).trans
      (prefix_applyAuto _ feedbackTxtrRead _)).trans
      (prefix_noiseStep code noiseBuf _)
  · intro code noiseBuf bs htime hfree
    have h1 : hasName (applyAuto (mousePat code) mouseBuffer bs) "time" = false := by
      rcases applyAuto_eq_or (mousePat code) mouseBuffer bs with he | ⟨_, _, he⟩ <;>
        rw [he]
      · exact hfree
      · rw [hasName_append, hfree]
        rfl
    have h2 : Binding.one timeBuffer ∈
        applyAuto (containsWord code "time") timeBuffer
          (applyAuto (mousePat code) mouseBuffer bs) := by
      rw [htime, applyAuto_append timeBuffer _ h1]
      simp
    exact mem_noiseStep_of_mem _ _ _
      (mem_applyAuto_of_mem _ _ _ (mem_applyAuto_of_mem _ _ _ h2))
  · intro code h bs hn
    unfold finalizeBindings noiseStep
    rw [if_pos hn]
    exact ⟨_, rfl⟩
  · intro code bs
    have key : ∀ bs' : List Binding,
        (mousePat code = true → hasName bs' "mouse" = true) →
        (containsWord code "time" = true → hasName bs' "time" = true) →
        (containsWord code "renderTxtr" = true → hasName bs' "renderTxtr" = true) →
        (containsWord code "feedbackTxtr" = true → hasName bs' "feedbackTxtr" = true) →
        finalizeBindings code none bs' = bs' := by
      intro bs' k1 k2 k3 k4
      unfold finalizeBindings
      rw [applyAuto_skip (mousePat code) mouseBuffer bs' k1,
        applyAuto_skip (containsWord code "time") timeBuffer bs' k2,
        applyAuto_skip (containsWord code "renderTxtr") renderTxtrWrite bs' k3,
        applyAuto_skip (containsWord code "feedbackTxtr") feedbackTxtrRead bs' k4]
      unfold noiseStep
      split <;> rfl
    apply key
    · intro hf
      exact hasName_noiseStep_mono _ _ _ _
        (hasName_applyAuto_mono _ _ _ _
          (hasName_applyAuto_mono _ _ _ _
            (hasName_applyAuto_mono _ _ _ _
              (hasName_applyAuto_post _ mouseBuffer bs hf))))
    · intro hf
      exact hasName_noiseStep_mono _ _ _ _
        (hasName_applyAuto_mono _ _ _ _
          (hasName_applyAuto_mono _ _ _ _
            (hasName_applyAuto_post _ timeBuffer _ hf)))
    · intro hf
      exact hasName_noiseStep_mono _ _ _ _
        (hasName_applyAuto_mono _ _ _ _
          (hasName_applyAuto_post _ renderTxtrWrite _ hf))
    · intro hf
      exact hasName_noiseStep_mono _ _ _ _
        (hasName_applyAuto_post _ feedbackTxtrRead _ hf)

/-- Claim C10, witness: a time-referencing text grows an empty caller list. -/
theorem C10_bindings_growth_witness :
    Binding.one timeBuffer ∈ finalizeBindings "t = time" none [] :=
  C10_bindings_growth.2.1 "t = time" none [] (by decide) (by decide)

/-
  Claim C4: fan-out over a split-buffer entry.
-/

lemma getElem?_append_cons (pre post : List Binding) (y : Binding) :
    (pre ++ y :: post)[pre.length]? = some y := by
  induction pre with
  | nil => simp
  | cons a t ih => simpa using ih

lemma set_append_cons (pre post : List Binding) (y x : Binding) :
    (pre ++ y :: post).set pre.length x = pre ++ x :: post := by
  induction pre with
  | nil => rfl
  | cons a t ih => simp [List.set, ih]

lemma findIdx?_first (pre post : List Binding) (y : Binding)
    (hpre : ∀ b ∈ pre, isMany b = false) (hy : isMany y = true) :
    ∀ i : Nat, List.findIdx? isMany (pre ++ y :: post) i = some (i + pre.length) := by
  induction pre with
  | nil =>
    intro i
    simp [List.findIdx?_cons, hy]
  | cons a t ih =>
    intro i
    have ha : isMany a = false := hpre a (List.mem_cons_self a t)
    rw [List.cons_append, List.findIdx?_cons, ha]
    simp only [Bool.false_eq_true, if_false]
    rw [ih (fun b hb => hpre b (List.mem_cons_of_mem a hb)) (i + 1)]
    simp
    omega

lemma findIdx?_none_of_all (l : List Binding)
    (h : ∀ b ∈ l, isMany b = false) : l.findIdx? isMany = none :=
  List.findIdx?_eq_none_iff.mpr h

lemma hasName_subst (pre post : List Binding) (hs : List Handle) (h : Handle)
    (nm : String)
    (hyp : hasName (pre ++ Binding.many hs :: post) nm = true) :
    hasName (pre ++ Binding.one h :: post) nm = true := by
  rw [hasName_append] at hyp ⊢
  have h1 : hasName (Binding.many hs :: post) nm = hasName post nm := by
    simp [hasName]
  rw [h1] at hyp
  have h2 : hasName (Binding.one h :: post) nm =
      ((h.name == nm) || hasName post nm) := by
    simp [hasName]
  rw [h2]
  have hyp' : hasName pre nm = true ∨ hasName post nm = true := by
    simpa using hyp
  rcases hyp' with hcase | hcase <;> simp [hcase]

lemma finalize_hasName (code : String) (nb : Option Handle) (bs : List Binding) :
    (mousePat code = true → hasName (finalizeBindings code nb bs) "mouse" = true) ∧
    (containsWord code "time" = true →
      hasName (finalizeBindings code nb bs) "time" = true) ∧
    (containsWord code "renderTxtr" = true →
      hasName (finalizeBindings code nb bs) "renderTxtr" = true) ∧
    (containsWord code "feedbackTxtr" = true →
      hasName (finalizeBindings code nb bs) "feedbackTxtr" = true) := by
  refine ⟨fun hf => ?_, fun hf => ?_, fun hf => ?_, fun hf => ?_⟩
  · exact hasName_noiseStep_mono _ _ _ _
      (hasName_applyAuto_mono _ _ _ _
        (hasName_applyAuto_mono _ _ _ _
          (hasName_applyAuto_mono _ _ _ _
            (hasName_applyAuto_post _ mouseBuffer bs hf))))
  · exact hasName_noiseStep_mono _ _ _ _
      (hasName_applyAuto_mono _ _ _ _
        (hasName_applyAuto_mono _ _ _ _
          (hasName_applyAuto_post _ timeBuffer _ hf)))
  · exact hasName_noiseStep_mono _ _ _ _
      (hasName_applyAuto_mono _ _ _ _
        (hasName_applyAuto_post _ renderTxtrWrite _ hf))
  · exact hasName_noiseStep_mono _ _ _ _
      (hasName_applyAuto_post _ feedbackTxtrRead _ hf)

/-- When every table resource that fires already has its name in the list and
the noise push cannot fire, finalization is the identity: this is what makes
the recursive fan-out construction substitution-only. -/
lemma finalize_of_hasName_all (code : String) (nb : Option Handle)
    (bs : List Binding)
    (k1 : mousePat code = true → hasName bs "mouse" = true)
    (k2 : containsWord code "time" = true → hasName bs "time" = true)
    (k3 : containsWord code "renderTxtr" = true → hasName bs "renderTxtr" = true)
    (k4 : containsWord code "feedbackTxtr" = true → hasName bs "feedbackTxtr" = true)
    (k5 : noiseRef code = false ∨ nb = none) :
    finalizeBindings code nb bs = bs := by
  unfold finalizeBindings
  rw [applyAuto_skip (mousePat code) mouseBuffer bs k1,
    applyAuto_skip (containsWord code "time") timeBuffer bs k2,
    applyAuto_skip (containsWord code "renderTxtr") renderTxtrWrite bs k3,
    applyAuto_skip (containsWord code "feedbackTxtr") feedbackTxtrRead bs k4]
  unfold noiseStep
  rcases k5 with k5 | k5
  · rw [if_neg (by simp [k5])]
  · subst k5
    split <;> rfl

lemma mapOpt_eq_map {β γ : Type} (F : β → Option γ) (G : β → γ) (l : List β)
    (h : ∀ x ∈ l, F x = some (G x)) : mapOpt F l = some (l.map G) := by
  induction l with
  | nil => rfl
  | cons x t ih =>
    simp [mapOpt, h x (List.mem_cons_self x t),
      ih fun y hy => h y (List.mem_cons_of_mem _ hy)]

/-- Claim C4 counterexample. The claim as stated fails when the shader text
references a noise function: the recursive constructor call re-runs the
auto-binding phase, whose noise push has no de-duplication, so each sub-pass
gains a second noise-buffer entry instead of keeping all non-array entries
unchanged. Here the finalized list has two entries (one array entry, one
ordinary noise entry), yet the single sub-pass has three. -/
theorem C4_counterexample :
    constructPass 2 "noise(x)" (some noiseBufferH)
        [Binding.many [⟨"c", some 7, 10⟩]] [none] =
      some (.group [.pass ⟨[Binding.one ⟨"c", some 7, 10⟩, Binding.one noiseBufferH,
        Binding.one noiseBufferH], [some 7]⟩]) ∧
    finalizeBindings "noise(x)" (some noiseBufferH)
        [Binding.many [⟨"c", some 7, 10⟩]] =
      [Binding.many [⟨"c", some 7, 10⟩], Binding.one noiseBufferH] := by
  constructor <;> rfl

/-- Claim C4 (amended): when the finalized binding list has exactly one array
entry (of k chunk handles), every other entry is a single handle, and the
noise push cannot fire again in the recursive construction (the text
references no noise function, or the noise buffer is absent), construction
returns exactly k passes; the i-th substitutes the i-th chunk in place, keeps
every other entry unchanged, and dispatches on that chunks own count. -/
theorem C4_fanout_amended (code : String) (noiseBuf : Option Handle)
    (bs0 : List Binding) (disp : List (Option Nat)) (pre post : List Binding)
    (hs : List Handle)
    (hnf : noiseRef code = false ∨ noiseBuf = none)
    (hsplit : finalizeBindings code noiseBuf bs0 = pre ++ Binding.many hs :: post)
    (hpre : ∀ b ∈ pre, isMany b = false)
    (hpost : ∀ b ∈ post, isMany b = false) :
    constructPass 2 code noiseBuf bs0 disp =
      some (.group (hs.map fun h =>
        PassResult.pass ⟨pre ++ Binding.one h :: post, [h.count]⟩)) := by
  have hidx : (pre ++ Binding.many hs :: post).findIdx? isMany = some pre.length := by
    simpa using findIdx?_first pre post (Binding.many hs) hpre rfl 0
  have hinner : ∀ h : Handle,
      constructPass 1 code noiseBuf (pre ++ Binding.one h :: post) [h.count] =
        some (.pass ⟨pre ++ Binding.one h :: post, [h.count]⟩) := by
    intro h
    have hfin : finalizeBindings code noiseBuf (pre ++ Binding.one h :: post) =
        pre ++ Binding.one h :: post := by
      refine finalize_of_hasName_all code noiseBuf _ ?_ ?_ ?_ ?_ hnf
      · intro hf
        exact hasName_subst pre post hs h _
          (hsplit ▸ (finalize_hasName code noiseBuf bs0).1 hf)
      · intro hf
        exact hasName_subst pre post hs h _
          (hsplit ▸ (finalize_hasName code noiseBuf bs0).2.1 hf)
      · intro hf
        exact hasName_subst pre post hs h _
          (hsplit ▸ (finalize_hasName code noiseBuf bs0).2.2.1 hf)
      · intro hf
        exact hasName_subst pre post hs h _
          (hsplit ▸ (finalize_hasName code noiseBuf bs0).2.2.2 hf)
    have hnone : (pre ++ Binding.one h :: post).findIdx? isMany = none := by
      refine findIdx?_none_of_all _ ?_
      intro b hb
      rcases List.mem_append.mp hb with hb | hb
      · exact hpre b hb
      · rcases List.mem_cons.mp hb with rfl | hb
        · rfl
        · exact hpost b hb
    rw [show (1 : Nat) = 0 + 1 from rfl]
    simp only [constructPass, constructPassStep]
    rw [hfin, hnone]
  rw [show (2 : Nat) = 1 + 1 from rfl,
    show constructPass (1 + 1) code noiseBuf bs0 disp =
      constructPassStep (constructPass 1 code noiseBuf) code noiseBuf bs0 disp from rfl]
  unfold constructPassStep
  rw [hsplit, hidx]
  simp only []
  rw [getElem?_append_cons]
  simp only [set_append_cons]
  rw [mapOpt_eq_map
    (fun h : Handle =>
      constructPass 1 code noiseBuf (pre ++ Binding.one h :: post) [h.count])
    (fun h : Handle =>
      PassResult.pass ⟨pre ++ Binding.one h :: post, [h.count]⟩)
    hs (fun h _ => hinner h)]
  rfl

/-- Claim C4 amended, witness: three chunk handles between two ordinary
entries, no auto-binding firing. -/
theorem C4_fanout_amended_witness :
    constructPass 2 "x" none
        [Binding.one ⟨"a", none, 20⟩,
          Binding.many [⟨"c1", some 7, 10⟩, ⟨"c2", some 8, 11⟩, ⟨"c3", some 9, 12⟩],
          Binding.one ⟨"b", none, 21⟩] [none] =
      some (.group
        ([⟨"c1", some 7, 10⟩, ⟨"c2", some 8, 11⟩, ⟨"c3", some 9, 12⟩].map
          fun h : Handle =>
            PassResult.pass
              ⟨[Binding.one ⟨"a", none, 20⟩] ++ Binding.one h ::
                [Binding.one ⟨"b", none, 21⟩], [h.count]⟩)) :=
  C4_fanout_amended "x" none _ [none] [Binding.one ⟨"a", none, 20⟩]
    [Binding.one ⟨"b", none, 21⟩]
    [⟨"c1", some 7, 10⟩, ⟨"c2", some 8, 11⟩, ⟨"c3", some 9, 12⟩]
    (Or.inr rfl) (by rfl) (by decide) (by decide)

/-
  Claim C5: runPasses records in order and submits once.
-/

def isSubmit {P : Type} : DevOp P → Bool
  | .submit => true
  | .record _ => false

/-- Claim C5: with an initialized device, the call records the flattened pass
sequence, repeated in order, into one encoder trace and performs exactly one
submission at the end; in particular [A, [B, C], D] yields the invocation
order A, B, C, D per repeat. -/
theorem C5_runPasses_single_submission {P : Type} (A B C D : P) (r : Nat) :
    runPasses true [RPItem.one A, RPItem.arr [B, C], RPItem.one D] r =
      .ok ((List.replicate r [A, B, C, D]).flatten.map DevOp.record
        ++ [DevOp.submit]) ∧
    (∀ (passes : List (RPItem P)) (r' : Nat) (tr : List (DevOp P)),
      runPasses true passes r' = .ok tr →
      (tr.filter isSubmit).length = 1 ∧
      tr = (List.replicate r' (flattenPasses passes)).flatten.map DevOp.record
        ++ [DevOp.submit]) := by
  constructor
  · rfl
  · intro passes r' tr htr
    have htr' : tr = (List.replicate r' (flattenPasses passes)).flatten.map
        DevOp.record ++ [DevOp.submit] := by
      simpa [runPasses] using htr.symm
    refine ⟨?_, htr'⟩
    rw [htr', List.filter_append]
    have hrec : ∀ l : List P, (l.map DevOp.record).filter isSubmit = [] := by
      intro l
      induction l with
      | nil => rfl
      | cons x t ih => simp [isSubmit, ih]
    rw [hrec]
    rfl

/-- Claim C5, witness instantiating the trace equation at one pass. -/
theorem C5_runPasses_single_submission_witness :
    (([DevOp.record (1 : Nat), DevOp.submit] : List (DevOp Nat)).filter
      isSubmit).length = 1 :=
  ((C5_runPasses_single_submission (1 : Nat) 2 3 4 1).2 [RPItem.one 1] 1
    [DevOp.record 1, DevOp.submit] (by rfl)).1

/-
  Claim C9: Buffer.update.
-/

/-- Claim C9 counterexample: updating a two-scalar buffer (8 bytes) with a
one-scalar array (4 bytes) does not fail: the write is queued, the host copy
replaced, and the allocated size left at 8 bytes, although the byte lengths
differ. The source update performs no length comparison at all. -/
theorem C9_counterexample :
    (BufferC.update (BufferC.mkBuf "t" [(1 : Nat), 2]) [9]).size = 8 ∧
    (BufferC.update (BufferC.mkBuf "t" [(1 : Nat), 2]) [9]).data = [9] ∧
    (BufferC.update (BufferC.mkBuf "t" [(1 : Nat), 2]) [9]).writes = [[9]] ∧
    4 * ([9] : List Nat).length ≠ (BufferC.mkBuf "t" [(1 : Nat), 2]).size := by
  refine ⟨rfl, rfl, rfl, ?_⟩
  decide

/-- Claim C9 (amended): update queues one host-to-device write of the given
data and replaces the host copy; the allocation size never changes (no
reallocation or growth), and no length validation happens in this layer: a
mismatched byte length is not rejected here (an oversized write is left to
device-side validation, outside this module). -/
theorem C9_update_amended {α : Type} (b : BufferC α) (d : List α) :
    (b.update d).size = b.size ∧ (b.update d).writes = b.writes ++ [d] ∧
      (b.update d).data = d :=
  ⟨rfl, rfl, rfl⟩

/-
  Shader Source Scanner (wgsl.js, WGSLParser). The cursor machine is embedded
  as explicit positions over the character list. Each while loop of the source
  is a fueled function; fuel exhaustion (none) models a scan that fails to
  halt within its budget and plays the role of the try/catch in
  extractFunctionsAndBody. The sufficiency lemmas below prove the budget of
  length + 2 cursor sweeps always suffices, which is the termination statement
  for the scanner. peek past the end returns the empty string in the source,
  modelled as the none case of the list lookup.
-/

section Scanner

variable (cs : List Char)

def skipWhitespaceF : Nat → Nat → Option Nat
  | 0, _ => none
  | fuel + 1, pos =>
    match cs[pos]? with
    | some c => if jsWS c then skipWhitespaceF fuel (pos + 1) else some pos
    | none => some pos

def lineCommentF : Nat → Nat → Option Nat
  | 0, _ => none
  | fuel + 1, pos =>
    match cs[pos]? with
    | some c => if c = '\n' then some pos else lineCommentF fuel (pos + 1)
    | none => some pos

def blockCommentF : Nat → Nat → Option Nat
  | 0, _ => none
  | fuel + 1, pos =>
    if pos + 1 < cs.length then
      if cs[pos]? = some '*' ∧ cs[pos + 1]? = some '/' then some (pos + 2)
      else blockCommentF fuel (pos + 1)
    else some pos

def skipCommentF (pos : Nat) : Option Nat :=
  if cs[pos]? = some '/' ∧ cs[pos + 1]? = some '/' then
    lineCommentF cs (cs.length + 2) pos
  else if cs[pos]? = some '/' ∧ cs[pos + 1]? = some '*' then
    blockCommentF cs (cs.length + 2) (pos + 2)
  else some pos

def skipWSCF : Nat → Nat → Option Nat
  | 0, _ => none
  | fuel + 1, pos =>
    match skipWhitespaceF cs (cs.length + 2) pos with
    | none => none
    | some p1 =>
      match skipCommentF cs p1 with
      | none => none
      | some p2 => if pos < p2 then skipWSCF fuel p2 else some p2

def readIdentF : Nat → Nat → Option Nat
  | 0, _ => none
  | fuel + 1, pos =>
    match cs[pos]? with
    | some c => if isWordChar c then readIdentF fuel (pos + 1) else some pos
    | none => some pos

/-- matchKeyword: skip whitespace and comments, compare the keyword character
by character (prefix test), reject when a word character follows; on failure
the cursor is restored to the entry position. Returns the matched flag and the
resulting position. -/
def matchKeywordF (kw : List Char) (pos : Nat) : Option (Bool × Nat) :=
  match skipWSCF cs (cs.length + 2) pos with
  | none => none
  | some p1 =>
    if kw.isPrefixOf (cs.drop p1) then
      match cs[p1 + kw.length]? with
      | some c =>
        if isWordChar c then some (false, pos) else some (true, p1 + kw.length)
      | none => some (true, p1 + kw.length)
    else some (false, pos)

/-- The balanced-group skip loops of parseFunction (parentheses and angle
brackets): check the top character, update the counter, advance. -/
def balancedSkipF (openC closeC : Char) : Nat → Nat → Nat → Option Nat
  | 0, _, _ => none
  | fuel + 1, pos, cnt =>
    if pos < cs.length ∧ 0 < cnt then
      balancedSkipF openC closeC fuel (pos + 1)
        (if cs[pos]? = some openC then cnt + 1
         else if cs[pos]? = some closeC then cnt - 1
         else cnt)
    else some pos

/-- The return-type skip: until an opening brace or whitespace, consuming one
balanced angle-bracket group after an opening angle. -/
def returnTypeF : Nat → Nat → Option Nat
  | 0, _ => none
  | fuel + 1, pos =>
    match cs[pos]? with
    | none => some pos
    | some c =>
      if c = '{' ∨ jsWS c then some pos
      else if c = '<' then
        match balancedSkipF cs '<' '>' (cs.length + 2) (pos + 1) 1 with
        | none => none
        | some p1 => returnTypeF fuel p1
      else returnTypeF fuel (pos + 1)

/-- The string-literal skip inside findMatchingBrace: until a closing quote,
an escape consuming two characters. -/
def stringSkipF : Nat → Nat → Option Nat
  | 0, _ => none
  | fuel + 1, pos =>
    match cs[pos]? with
    | none => some pos
    | some c =>
      if c = '"' then some pos
      else if c = '\\' then stringSkipF fuel (pos + 2)
      else stringSkipF fuel (pos + 1)

/-- The brace-balance loop of findMatchingBrace: per iteration skip whitespace
and comments, then handle a brace, a string literal (closing quote consumed
when present), or any other character. Inner value none is the -1 result. -/
def braceLoopF : Nat → Nat → Nat → Option (Option Nat)
  | 0, _, _ => none
  | fuel + 1, pos, bc =>
    if pos < cs.length ∧ 0 < bc then
      match skipWSCF cs (cs.length + 2) pos with
      | none => none
      | some p =>
        if cs[p]? = some '{' then braceLoopF fuel (p + 1) (bc + 1)
        else if cs[p]? = some '}' then braceLoopF fuel (p + 1) (bc - 1)
        else if cs[p]? = some '"' then
          match stringSkipF cs (cs.length + 2) (p + 1) with
          | none => none
          | some p1 => braceLoopF fuel (if cs[p1]? = some '"' then p1 + 1 else p1) bc
        else braceLoopF fuel (p + 1) bc
    else some (if bc = 0 then some pos else none)

def findMatchingBraceF (pos : Nat) : Option (Option Nat) :=
  if cs[pos]? = some '{' then braceLoopF cs (cs.length + 2) (pos + 1) 1
  else some none

/-- parseFunction: keyword, name, parameter group, optional arrow return type,
brace-balanced body; the emitted unit is the trimmed slice from the keyword
through the closing brace. Inner value none is the null result (the cursor is
restored by the caller using its saved entry position). -/
def parseFunctionF (pos : Nat) : Option (Option (List Char × Nat)) :=
  match matchKeywordF cs "fn".toList pos with
  | none => none
  | some (false, _) => some none
  | some (true, p1) =>
    match skipWSCF cs (cs.length + 2) p1 with
    | none => none
    | some p2 =>
      match readIdentF cs (cs.length + 2) p2 with
      | none => none
      | some p3 =>
        if p3 = p2 then some none
        else
          match skipWSCF cs (cs.length + 2) p3 with
          | none => none
          | some p4 =>
            if cs[p4]? ≠ some '(' then some none
            else
              match balancedSkipF cs '(' ')' (cs.length + 2) (p4 + 1) 1 with
              | none => none
              | some p5 =>
                match skipWSCF cs (cs.length + 2) p5 with
                | none => none
                | some p6 =>
                  match
                    (if cs[p6]? = some '-' ∧ cs[p6 + 1]? = some '>' then
                      match skipWSCF cs (cs.length + 2) (p6 + 2) with
                      | none => none
                      | some pa => returnTypeF cs (cs.length + 2) pa
                    else some p6) with
                  | none => none
                  | some p7 =>
                    match skipWSCF cs (cs.length + 2) p7 with
                    | none => none
                    | some p8 =>
                      match findMatchingBraceF cs p8 with
                      | none => none
                      | some none => some none
                      | some (some bodyEnd) =>
                        some (some
                          (jsTrimL ((cs.drop pos).take (bodyEnd - pos)), bodyEnd))

/-- The line consumption of the parse loop: through the next newline. -/
def lineEndF : Nat → Nat → Option Nat
  | 0, _ => none
  | fuel + 1, pos =>
    match cs[pos]? with
    | none => some pos
    | some c => if c = '\n' then some (pos + 1) else lineEndF fuel (pos + 1)

/-- The main parse loop: functions are collected whole; a failed function
parse consumes one line into the loose body (blank lines dropped). -/
def parseLoopF : Nat → Nat → List (List Char) → List (List Char) →
    Option (List (List Char) × List (List Char))
  | 0, _, _, _ => none
  | fuel + 1, pos, fns, body =>
    if cs.length ≤ pos then some (fns, body)
    else
      match skipWSCF cs (cs.length + 2) pos with
      | none => none
      | some p =>
        if cs.length ≤ p then some (fns, body)
        else
          match parseFunctionF cs p with
          | none => none
          | some (some (fnCode, p')) => parseLoopF fuel p' (fns ++ [fnCode]) body
          | some none =>
            match lineEndF cs (cs.length + 2) p with
            | none => none
            | some p' =>
              parseLoopF fuel p' fns
                (if jsTrimL ((cs.drop p).take (p' - p)) = [] then body
                 else body ++ [jsTrimL ((cs.drop p).take (p' - p))])

end Scanner

def joinNL (ls : List (List Char)) : List Char :=
  List.intercalate ['\n'] ls

/-- The catch-block fallback of extractFunctionsAndBody: trimmed non-blank
lines; a line starting with the function-start token opens a function group
collected until the running brace balance returns to zero (an unbalanced group
is dropped); everything else is loose body. -/
structure FallbackState where
  inFunction : Bool
  braceCount : Int
  currentFunction : List (List Char)
  functions : List (List Char)
  body : List (List Char)

def braceDelta (line : List Char) : Int :=
  (line.count '{' : Int) - (line.count '}' : Int)

def fallbackStep (st : FallbackState) (line : List Char) : FallbackState :=
  if "fn ".toList.isPrefixOf line then
    { st with
      inFunction := true
      currentFunction := [line]
      braceCount := braceDelta line }
  else if st.inFunction then
    if st.braceCount + braceDelta line = 0 then
      { st with
        functions := st.functions ++ [joinNL (st.currentFunction ++ [line])]
        inFunction := false
        currentFunction := []
        braceCount := st.braceCount + braceDelta line }
    else
      { st with
        currentFunction := st.currentFunction ++ [line]
        braceCount := st.braceCount + braceDelta line }
  else
    { st with body := st.body ++ [line] }

def fallbackSplit (code : String) : List String × String :=
  let lines := ((code.toList.splitOn '\n').map jsTrimL).filter
    fun l => l ≠ []
  let st := lines.foldl fallbackStep ⟨false, 0, [], [], []⟩
  (st.functions.map String.mk, String.mk (joinNL st.body))

/-- extractFunctionsAndBody: run the scanner; were the scan to abort (fuel
exhaustion here, an exception in the source), fall back to the line-based
split. The theorem for claim C6 shows the scan always completes, so the
fallback branch is unreachable. -/
def extractFunctionsAndBody (code : String) : List String × String :=
  match parseLoopF code.toList (code.toList.length + 2) 0 [] [] with
  | some (fns, body) => (fns.map String.mk, String.mk (joinNL body))
  | none => fallbackSplit code

/-
  Scanner sufficiency: a budget of length + 2 sweeps is enough for every loop,
  so the scan always halts with a result. This is the termination argument for
  the cursor machine.
-/

lemma lt_of_getElem?_some {l : List Char} {i : Nat} {c : Char}
    (h : l[i]? = some c) : i < l.length := by
  by_contra hcon
  rw [List.getElem?_eq_none (by omega)] at h
  exact Option.noConfusion h

lemma skipWhitespaceF_spec (cs : List Char) :
    ∀ (fuel pos : Nat), cs.length + 1 - pos < fuel →
      ∃ p', skipWhitespaceF cs fuel pos = some p' ∧ pos ≤ p' ∧
        p' ≤ max pos cs.length := by
  intro fuel
  induction fuel with
  | zero => intro pos h; omega
  | succ f ih =>
    intro pos h
    cases hc : cs[pos]? with
    | none => exact ⟨pos, by simp [skipWhitespaceF, hc], le_refl pos, le_max_left _ _⟩
    | some c =>
      by_cases hw : jsWS c = true
      · have hlt : pos < cs.length := lt_of_getElem?_some hc
        obtain ⟨p', hp', hle, hub⟩ := ih (pos + 1) (by omega)
        refine ⟨p', by simp [skipWhitespaceF, hc, hw, hp'], by omega, by omega⟩
      · exact ⟨pos, by simp [skipWhitespaceF, hc, hw], le_refl pos, le_max_left _ _⟩

lemma lineCommentF_spec (cs : List Char) :
    ∀ (fuel pos : Nat), cs.length + 1 - pos < fuel →
      ∃ p', lineCommentF cs fuel pos = some p' ∧ pos ≤ p' ∧
        p' ≤ max pos cs.length := by
  intro fuel
  induction fuel with
  | zero => intro pos h; omega
  | succ f ih =>
    intro pos h
    cases hc : cs[pos]? with
    | none => exact ⟨pos, by simp [lineCommentF, hc], le_refl pos, le_max_left _ _⟩
    | some c =>
      by_cases hw : c = '\n'
      · exact ⟨pos, by simp [lineCommentF, hc, hw], le_refl pos, le_max_left _ _⟩
      · have hlt : pos < cs.length := lt_of_getElem?_some hc
        obtain ⟨p', hp', hle, hub⟩ := ih (pos + 1) (by omega)
        exact ⟨p', by simp [lineCommentF, hc, hw, hp'], by omega, by omega⟩

lemma blockCommentF_spec (cs : List Char) :
    ∀ (fuel pos : Nat), cs.length + 1 - pos < fuel →
      ∃ p', blockCommentF cs fuel pos = some p' ∧ pos ≤ p' ∧
        p' ≤ max pos cs.length := by
  intro fuel
  induction fuel with
  | zero => intro pos h; omega
  | succ f ih =>
    intro pos h
    by_cases hin : pos + 1 < cs.length
    · by_cases hstar : cs[pos]? = some '*' ∧ cs[pos + 1]? = some '/'
      · exact ⟨pos + 2, by simp [blockCommentF, hin, hstar], by omega, by omega⟩
      · obtain ⟨p', hp', hle, hub⟩ := ih (pos + 1) (by omega)
        refine ⟨p', ?_, by omega, by omega⟩
        simp only [blockCommentF]
        rw [if_pos hin, if_neg hstar]
        exact hp'
    · exact ⟨pos, by simp [blockCommentF, hin], le_refl pos, le_max_left _ _⟩

lemma skipCommentF_spec (cs : List Char) (pos : Nat) :
    ∃ p', skipCommentF cs pos = some p' ∧ pos ≤ p' ∧ p' ≤ max pos cs.length := by
  by_cases h1 : cs[pos]? = some '/' ∧ cs[pos + 1]? = some '/'
  · obtain ⟨p', hp', hle, hub⟩ := lineCommentF_spec cs (cs.length + 2) pos (by omega)
    exact ⟨p', by simp [skipCommentF, h1, hp'], hle, hub⟩
  · by_cases h2 : cs[pos]? = some '/' ∧ cs[pos + 1]? = some '*'
    · have hlt : pos + 1 < cs.length := lt_of_getElem?_some h2.2
      obtain ⟨p', hp', hle, hub⟩ :=
        blockCommentF_spec cs (cs.length + 2) (pos + 2) (by omega)
      exact ⟨p', by simp [skipCommentF, h1, h2, hp'], by omega, by omega⟩
    · exact ⟨pos, by simp [skipCommentF, h1, h2], le_refl pos, le_max_left _ _⟩

lemma skipWSCF_spec (cs : List Char) :
    ∀ (fuel pos : Nat), cs.length + 1 - pos < fuel →
      ∃ p', skipWSCF cs fuel pos = some p' ∧ pos ≤ p' ∧
        p' ≤ max pos cs.length := by
  intro fuel
  induction fuel with
  | zero => intro pos h; omega
  | succ f ih =>
    intro pos h
    obtain ⟨p1, hp1, hle1, hub1⟩ := skipWhitespaceF_spec cs (cs.length + 2) pos (by omega)
    obtain ⟨p2, hp2, hle2, hub2⟩ := skipCommentF_spec cs p1
    by_cases hprog : pos < p2
    · have hposL : pos < cs.length := by omega
      obtain ⟨p', hp', hle', hub'⟩ := ih p2 (by omega)
      exact ⟨p', by simp [skipWSCF, hp1, hp2, hprog, hp'], by omega, by omega⟩
    · exact ⟨p2, by simp [skipWSCF, hp1, hp2, hprog], by omega, by omega⟩

lemma readIdentF_spec (cs : List Char) :
    ∀ (fuel pos : Nat), cs.length + 1 - pos < fuel →
      ∃ p', readIdentF cs fuel pos = some p' ∧ pos ≤ p' := by
  intro fuel
  induction fuel with
  | zero => intro pos h; omega
  | succ f ih =>
    intro pos h
    cases hc : cs[pos]? with
    | none => exact ⟨pos, by simp [readIdentF, hc], le_refl pos⟩
    | some c =>
      by_cases hw : isWordChar c = true
      · have hlt : pos < cs.length := lt_of_getElem?_some hc
        obtain ⟨p', hp', hle⟩ := ih (pos + 1) (by omega)
        exact ⟨p', by simp [readIdentF, hc, hw, hp'], by omega⟩
      · exact ⟨pos, by simp [readIdentF, hc, hw], le_refl pos⟩

lemma balancedSkipF_spec (cs : List Char) (openC closeC : Char) :
    ∀ (fuel pos cnt : Nat), cs.length + 1 - pos < fuel →
      ∃ p', balancedSkipF cs openC closeC fuel pos cnt = some p' ∧ pos ≤ p' := by
  intro fuel
  induction fuel with
  | zero => intro pos cnt h; omega
  | succ f ih =>
    intro pos cnt h
    by_cases hin : pos < cs.length ∧ 0 < cnt
    · obtain ⟨p', hp', hle⟩ := ih (pos + 1)
        (if cs[pos]? = some openC then cnt + 1
         else if cs[pos]? = some closeC then cnt - 1 else cnt) (by omega)
      exact ⟨p', by simp only [balancedSkipF, if_pos hin, hp'], by omega⟩
    · exact ⟨pos, by simp only [balancedSkipF, if_neg hin], le_refl pos⟩

lemma returnTypeF_spec (cs : List Char) :
    ∀ (fuel pos : Nat), cs.length + 1 - pos < fuel →
      ∃ p', returnTypeF cs fuel pos = some p' ∧ pos ≤ p' := by
  intro fuel
  induction fuel with
  | zero => intro pos h; omega
  | succ f ih =>
    intro pos h
    cases hc : cs[pos]? with
    | none => exact ⟨pos, by simp [returnTypeF, hc], le_refl pos⟩
    | some c =>
      have hlt : pos < cs.length := lt_of_getElem?_some hc
      by_cases hstop : c = '{' ∨ jsWS c = true
      · exact ⟨pos, by simp [returnTypeF, hc, hstop], le_refl pos⟩
      · by_cases hangle : c = '<'
        · obtain ⟨p1, hp1, hle1⟩ :=
            balancedSkipF_spec cs '<' '>' (cs.length + 2) (pos + 1) 1 (by omega)
          obtain ⟨p', hp', hle'⟩ := ih p1 (by omega)
          refine ⟨p', ?_, by omega⟩
          simp only [returnTypeF, hc]
          rw [if_neg hstop, if_pos hangle, hp1]
          simpa using hp'
        · obtain ⟨p', hp', hle'⟩ := ih (pos + 1) (by omega)
          exact ⟨p', by simp [returnTypeF, hc, hstop, hangle, hp'], by omega⟩

lemma stringSkipF_spec (cs : List Char) :
    ∀ (fuel pos : Nat), cs.length + 1 - pos < fuel →
      ∃ p', stringSkipF cs fuel pos = some p' ∧ pos ≤ p' := by
  intro fuel
  induction fuel with
  | zero => intro pos h; omega
  | succ f ih =>
    intro pos h
    cases hc : cs[pos]? with
    | none => exact ⟨pos, by simp [stringSkipF, hc], le_refl pos⟩
    | some c =>
      have hlt : pos < cs.length := lt_of_getElem?_some hc
      by_cases hq : c = '"'
      · exact ⟨pos, by simp [stringSkipF, hc, hq], le_refl pos⟩
      · by_cases hesc : c = '\\'
        · obtain ⟨p', hp', hle⟩ := ih (pos + 2) (by omega)
          exact ⟨p', by simp [stringSkipF, hc, hq, hesc, hp'], by omega⟩
        · obtain ⟨p', hp', hle⟩ := ih (pos + 1) (by omega)
          exact ⟨p', by simp [stringSkipF, hc, hq, hesc, hp'], by omega⟩

lemma braceLoopF_spec (cs : List Char) :
    ∀ (fuel pos bc : Nat), cs.length + 1 - pos < fuel →
      ∃ r, braceLoopF cs fuel pos bc = some r ∧
        ∀ pe, r = some pe → pos ≤ pe := by
  intro fuel
  induction fuel with
  | zero => intro pos bc h; omega
  | succ f ih =>
    intro pos bc h
    by_cases hin : pos < cs.length ∧ 0 < bc
    · obtain ⟨p, hp, hple, hpub⟩ := skipWSCF_spec cs (cs.length + 2) pos (by omega)
      have hposL : pos < cs.length := hin.1
      by_cases h1 : cs[p]? = some '{'
      · obtain ⟨r, hr, hmono⟩ := ih (p + 1) (bc + 1) (by omega)
        refine ⟨r, ?_, fun pe hpe => by have := hmono pe hpe; omega⟩
        simp only [braceLoopF]
        rw [if_pos hin, hp]
        simp only []
        rw [if_pos h1]
        exact hr
      · by_cases h2 : cs[p]? = some '}'
        · obtain ⟨r, hr, hmono⟩ := ih (p + 1) (bc - 1) (by omega)
          refine ⟨r, ?_, fun pe hpe => by have := hmono pe hpe; omega⟩
          simp only [braceLoopF]
          rw [if_pos hin, hp]
          simp only []
          rw [if_neg h1, if_pos h2]
          exact hr
        · by_cases h3 : cs[p]? = some '"'
          · obtain ⟨p1, hp1, hl1⟩ :=
              stringSkipF_spec cs (cs.length + 2) (p + 1) (by omega)
            have hnext : p + 1 ≤ (if cs[p1]? = some '"' then p1 + 1 else p1) := by
              split <;> omega
            obtain ⟨r, hr, hmono⟩ :=
              ih (if cs[p1]? = some '"' then p1 + 1 else p1) bc (by omega)
            refine ⟨r, ?_, fun pe hpe => by have := hmono pe hpe; omega⟩
            simp only [braceLoopF]
            rw [if_pos hin, hp]
            simp only []
            rw [if_neg h1, if_neg h2, if_pos h3, hp1]
            simpa using hr
          · obtain ⟨r, hr, hmono⟩ := ih (p + 1) bc (by omega)
            refine ⟨r, ?_, fun pe hpe => by have := hmono pe hpe; omega⟩
            simp only [braceLoopF]
            rw [if_pos hin, hp]
            simp only []
            rw [if_neg h1, if_neg h2, if_neg h3]
            exact hr
    · refine ⟨if bc = 0 then some pos else none, ?_, ?_⟩
      · simp only [braceLoopF]
        rw [if_neg hin]
      · intro pe hpe
        split at hpe
        · cases hpe
          exact le_refl pos
        · exact Option.noConfusion hpe

lemma findMatchingBraceF_spec (cs : List Char) (pos : Nat) :
    ∃ r, findMatchingBraceF cs pos = some r ∧ ∀ pe, r = some pe → pos < pe := by
  by_cases hb : cs[pos]? = some '{'
  · obtain ⟨r, hr, hmono⟩ := braceLoopF_spec cs (cs.length + 2) (pos + 1) 1 (by omega)
    exact ⟨r, by simp [findMatchingBraceF, hb, hr],
      fun pe hpe => by have := hmono pe hpe; omega⟩
  · exact ⟨none, by simp [findMatchingBraceF, hb],
      fun pe hpe => Option.noConfusion hpe⟩

lemma matchKeywordF_spec (cs : List Char) (kw : List Char) (pos : Nat) :
    ∃ b q, matchKeywordF cs kw pos = some (b, q) ∧
      (b = true → pos + kw.length ≤ q) := by
  obtain ⟨p1, hp1, hle1, _⟩ := skipWSCF_spec cs (cs.length + 2) pos (by omega)
  by_cases hpre : kw.isPrefixOf (cs.drop p1) = true
  · cases haf : cs[p1 + kw.length]? with
    | some c =>
      by_cases hw : isWordChar c = true
      · exact ⟨false, pos, by simp [matchKeywordF, hp1, hpre, haf, hw], by simp⟩
      · exact ⟨true, p1 + kw.length,
          by simp [matchKeywordF, hp1, hpre, haf, hw], fun _ => by omega⟩
    | none =>
      exact ⟨true, p1 + kw.length, by simp [matchKeywordF, hp1, hpre, haf],
        fun _ => by omega⟩
  · exact ⟨false, pos, by simp [matchKeywordF, hp1, hpre], by simp⟩

lemma parseFunctionF_spec (cs : List Char) (pos : Nat) :
    ∃ r, parseFunctionF cs pos = some r ∧
      ∀ c p', r = some (c, p') → pos < p' := by
  obtain ⟨b, q, hmk, hq⟩ := matchKeywordF_spec cs ['f', 'n'] pos
  cases b with
  | false =>
    exact ⟨none, by simp [parseFunctionF, hmk], fun c p' h => Option.noConfusion h⟩
  | true =>
    have hq2 : pos + 2 ≤ q := by simpa using hq rfl
    obtain ⟨p2, hp2, hle2, _⟩ := skipWSCF_spec cs (cs.length + 2) q (by omega)
    obtain ⟨p3, hp3, hle3⟩ := readIdentF_spec cs (cs.length + 2) p2 (by omega)
    by_cases hname : p3 = p2
    · exact ⟨none, by simp [parseFunctionF, hmk, hp2, hp3, hname],
        fun c p' h => Option.noConfusion h⟩
    · obtain ⟨p4, hp4, hle4, _⟩ := skipWSCF_spec cs (cs.length + 2) p3 (by omega)
      by_cases hpar : cs[p4]? = some '('
      case neg =>
        exact ⟨none, by simp [parseFunctionF, hmk, hp2, hp3, hname, hp4, hpar],
          fun c p' h => Option.noConfusion h⟩
      case pos =>
        obtain ⟨p5, hp5, hle5⟩ :=
          balancedSkipF_spec cs '(' ')' (cs.length + 2) (p4 + 1) 1 (by omega)
        obtain ⟨p6, hp6, hle6, _⟩ := skipWSCF_spec cs (cs.length + 2) p5 (by omega)
        have harrow : ∃ p7,
            (if cs[p6]? = some '-' ∧ cs[p6 + 1]? = some '>' then
              match skipWSCF cs (cs.length + 2) (p6 + 2) with
              | none => none
              | some pa => returnTypeF cs (cs.length + 2) pa
            else some p6) = some p7 ∧ p6 ≤ p7 := by
          by_cases hc : cs[p6]? = some '-' ∧ cs[p6 + 1]? = some '>'
          · obtain ⟨pa, hpa, hlea, _⟩ :=
              skipWSCF_spec cs (cs.length + 2) (p6 + 2) (by omega)
            obtain ⟨p7, hp7, hle7⟩ := returnTypeF_spec cs (cs.length + 2) pa (by omega)
            refine ⟨p7, ?_, by omega⟩
            rw [if_pos hc, hpa]
            simpa using hp7
          · exact ⟨p6, by rw [if_neg hc], le_refl p6⟩
        obtain ⟨p7, hp7, hle7⟩ := harrow
        obtain ⟨p8, hp8, hle8, _⟩ := skipWSCF_spec cs (cs.length + 2) p7 (by omega)
        obtain ⟨rb, hrb, hmono⟩ := findMatchingBraceF_spec cs p8
        cases rb with
        | none =>
          exact ⟨none,
            by simp [parseFunctionF, hmk, hp2, hp3, hname, hp4, hpar, hp5, hp6,
              hp7, hp8, hrb],
            fun c p' h => Option.noConfusion h⟩
        | some bodyEnd =>
          refine ⟨some (jsTrimL ((cs.drop pos).take (bodyEnd - pos)), bodyEnd),
            by simp [parseFunctionF, hmk, hp2, hp3, hname, hp4, hpar, hp5, hp6,
              hp7, hp8, hrb], ?_⟩
          intro c p' hcp
          cases hcp
          have := hmono bodyEnd rfl
          omega

lemma lineEndF_spec (cs : List Char) :
    ∀ (fuel pos : Nat), cs.length + 1 - pos < fuel →
      ∃ p', lineEndF cs fuel pos = some p' ∧ pos ≤ p' ∧
        (pos < cs.length → pos + 1 ≤ p') := by
  intro fuel
  induction fuel with
  | zero => intro pos h; omega
  | succ f ih =>
    intro pos h
    cases hc : cs[pos]? with
    | none =>
      refine ⟨pos, by simp [lineEndF, hc], le_refl pos, ?_⟩
      intro hlt
      rw [List.getElem?_eq_getElem hlt] at hc
      exact Option.noConfusion hc
    | some c =>
      have hlt : pos < cs.length := lt_of_getElem?_some hc
      by_cases hn : c = '\n'
      · exact ⟨pos + 1, by simp [lineEndF, hc, hn], by omega, fun _ => le_refl _⟩
      · obtain ⟨p', hp', hle, hprog⟩ := ih (pos + 1) (by omega)
        exact ⟨p', by simp [lineEndF, hc, hn, hp'], by omega, fun _ => by omega⟩

lemma parseLoopF_spec (cs : List Char) :
    ∀ (fuel pos : Nat) (fns body : List (List Char)),
      cs.length + 1 - pos < fuel →
      ∃ r, parseLoopF cs fuel pos fns body = some r := by
  intro fuel
  induction fuel with
  | zero => intro pos fns body h; omega
  | succ f ih =>
    intro pos fns body h
    by_cases hend : cs.length ≤ pos
    · exact ⟨(fns, body), by simp [parseLoopF, hend]⟩
    · obtain ⟨p, hp, hple, hpub⟩ := skipWSCF_spec cs (cs.length + 2) pos (by omega)
      by_cases hend2 : cs.length ≤ p
      · exact ⟨(fns, body), by simp [parseLoopF, hend, hp, hend2]⟩
      · obtain ⟨r, hr, hmono⟩ := parseFunctionF_spec cs p
        cases r with
        | some cp =>
          obtain ⟨fnCode, p'⟩ := cp
          have hlt := hmono fnCode p' rfl
          obtain ⟨r2, hr2⟩ := ih p' (fns ++ [fnCode]) body (by omega)
          exact ⟨r2, by simp [parseLoopF, hend, hp, hend2, hr, hr2]⟩
        | none =>
          obtain ⟨p', hp', hple', hprog⟩ := lineEndF_spec cs (cs.length + 2) p (by omega)
          have hp1 : p + 1 ≤ p' := hprog (by omega)
          obtain ⟨r2, hr2⟩ := ih p' fns
            (if jsTrimL ((cs.drop p).take (p' - p)) = [] then body
             else body ++ [jsTrimL ((cs.drop p).take (p' - p))]) (by omega)
          exact ⟨r2, by simp [parseLoopF, hend, hp, hend2, hr, hp', hr2]⟩

/-- Claim C6 counterexample. On an input the scanner cannot parse cleanly (an
unterminated brace), the result is still produced by the character scanner
itself, which absorbs the failed function parse as a loose body line
(parseFunctionF yields the null result); the line-based fallback split would
produce a different result (it drops the unbalanced group), so the claimed
fallback is not what produces the result. -/
theorem C6_counterexample :
    extractFunctionsAndBody "fn f() \x7b" ≠ fallbackSplit "fn f() \x7b" ∧
    parseFunctionF "fn f() \x7b".toList 0 = some none ∧
    extractFunctionsAndBody "fn f() \x7b" = ([], "fn f() \x7b") := by
  refine ⟨by decide, rfl, rfl⟩

/-- Claim C6 (amended): for every input string the character-level scan halts
within its cursor budget and yields a functions/body split without raising
(the scanner contains no throwing operation; scan failures are absorbed by
consuming the offending text as loose body lines), so shader assembly never
aborts; the line-based fallback branch, which mirrors the try/catch of the
source, is never exercised. -/
theorem C6_scanner_total_amended (code : String) :
    ∃ fns body,
      parseLoopF code.toList (code.toList.length + 2) 0 [] [] = some (fns, body) ∧
      extractFunctionsAndBody code = (fns.map String.mk, String.mk (joinNL body)) := by
  obtain ⟨r, hr⟩ :=
    parseLoopF_spec code.toList (code.toList.length + 2) 0 [] [] (by omega)
  obtain ⟨fns, body⟩ := r
  refine ⟨fns, body, hr, ?_⟩
  unfold extractFunctionsAndBody
  rw [hr]

/-
  Shader Assembler (wgsl.js, the wgsl template function). The interpolated
  template renders to a string before this logic runs, so the embedding takes
  the rendered text. The canvas width and height (formatted to two decimals by
  the source) and the noise library text are environment values fetched from
  the excluded canvas/noise collaborators, passed here as parameters; the
  lazy creation of the noise-support buffer is a side effect of fetching the
  noise code and is outside this function.
-/

/-- The global whole-word replace: on a match, emit the replacement and resume
after the matched word (non-overlapping, as the JS global flag does); fuel is
one unit per character. -/
def replaceWordAuxF (w repl : List Char) : Nat → Option Char → List Char → List Char
  | 0, _, l => l
  | _ + 1, _, [] => []
  | fuel + 1, prev, c :: rest =>
    if (match prev with | none => true | some p => !isWordChar p)
        && wordMatchHere (c :: rest) w then
      repl ++ replaceWordAuxF w repl fuel (some (w.getLastD c))
        (rest.drop (w.length - 1))
    else c :: replaceWordAuxF w repl fuel (some c) rest

def replaceWord (code : String) (w repl : String) : String :=
  String.mk (replaceWordAuxF w.toList repl.toList (code.toList.length + 1)
    none code.toList)

/-- Scanner for the pattern: literal fn, one or more spaces, a given name,
optional spaces, an opening paren (the shape of the main test and of the
noise-definition tests; no word boundaries in the source patterns). -/
def spacesNameRest (nm : List Char) : List Char → Bool
  | [] => false
  | c :: rest =>
    if jsWS c then spacesNameRest nm rest
    else nm.isPrefixOf (c :: rest) && afterSpacesParen ((c :: rest).drop nm.length)

def spacesName (nm : List Char) : List Char → Bool
  | [] => false
  | c :: rest => jsWS c && spacesNameRest nm rest

def fnNameHere (nm : List Char) (cs : List Char) : Bool :=
  "fn".toList.isPrefixOf cs && spacesName nm (cs.drop 2)

def fnNameAux (nm : List Char) : List Char → Bool
  | [] => false
  | c :: rest => fnNameHere nm (c :: rest) || fnNameAux nm rest

def fnNamePat (code : String) (nm : String) : Bool :=
  fnNameAux nm.toList code.toList

structure WgslEnv where
  widthS : String
  heightS : String
  noiseCode : String

/-- The body indentation of the synthesized entry point: two spaces before
every non-blank line. -/
def indentBody (body : String) : String :=
  String.intercalate "\n" ((body.splitOn "\n").map fun line =>
    if jsTrimL line.toList = [] then line else "  " ++ line)

/-- The synthesized program: helper functions, blank-line separated, then the
fixed compute entry point wrapping the indented loose body. -/
def assembleMain (fns : List String) (body : String) : String :=
  (if fns.length > 0 then String.intercalate "\n\n" fns ++ "\n\n" else "") ++
    "@compute @workgroup_size(1)\n" ++
    "fn main(@builtin(global_invocation_id) id: vec3<u32>) \x7b\n" ++
    (if body = "" then "" else indentBody body ++ "\n") ++ "\x7d"

/-- Steps 1 to 4 of the assembler: whole-word width and height substitution,
noise-library prepend when a noise call is referenced and none of the noise
functions is defined in the text, then trim. -/
def wgslPre (env : WgslEnv) (code : String) : String :=
  let c1 := replaceWord code "width" env.widthS
  let c2 := replaceWord c1 "height" env.heightS
  let c3 :=
    if noiseRef c2 && !(fnNamePat c2 "noise" || fnNamePat c2 "noise2"
        || fnNamePat c2 "noise3") then
      env.noiseCode ++ "\n\n" ++ c2
    else c2
  String.mk (jsTrimL c3.toList)

/-- The wgsl assembler on rendered text: after preprocessing, a text already
containing a main definition is returned as is; otherwise the scanner splits
it and the entry point is synthesized. -/
def wgsl (env : WgslEnv) (code : String) : String :=
  if fnNamePat (wgslPre env code) "main" then wgslPre env code
  else
    assembleMain (extractFunctionsAndBody (wgslPre env code)).1
      (extractFunctionsAndBody (wgslPre env code)).2

lemma replaceWordAuxF_id (w repl : List Char) :
    ∀ (cs : List Char) (fuel : Nat) (prev : Option Char),
      cs.length < fuel → containsWordAux prev cs w = false →
      replaceWordAuxF w repl fuel prev cs = cs := by
  intro cs
  induction cs with
  | nil =>
    intro fuel prev hf _
    cases fuel with
    | zero => omega
    | succ f => rfl
  | cons c rest ih =>
    intro fuel prev hf hcw
    cases fuel with
    | zero => omega
    | succ f =>
      simp only [containsWordAux, Bool.or_eq_false_iff] at hcw
      simp only [replaceWordAuxF]
      rw [if_neg (by simp [hcw.1])]
      rw [ih f (some c) (by simpa using hf) hcw.2]

lemma mk_toList (s : String) : String.mk s.toList = s := rfl

lemma replaceWord_id (code w repl : String)
    (h : containsWord code w = false) : replaceWord code w repl = code := by
  unfold replaceWord
  rw [replaceWordAuxF_id w.toList repl.toList code.toList
    (code.toList.length + 1) none (by omega) h]
  exact mk_toList code

/-- Claim C7 counterexample: a complete program with a trailing newline is
returned trimmed, hence not textually unchanged, although it contains no
width, height or noise reference; the only changes the claim allows are the
width and height substitutions. -/
theorem C7_counterexample :
    wgsl ⟨"100.00", "200.00", "NOISECODE"⟩ "fn main() \x7b \x7d\n" =
      "fn main() \x7b \x7d" ∧
    ("fn main() \x7b \x7d" : String) ≠ "fn main() \x7b \x7d\n" := by
  exact ⟨rfl, by decide⟩

/-- Claim C7 (amended): a template whose preprocessed text (width and height
substitution, optional noise prepend, trim) contains a main definition is
returned with no entry-point wrapping; in particular a trimmed template with a
main definition and no width, height or noise reference is returned verbatim. -/
theorem C7_main_passthrough_amended :
    (∀ (env : WgslEnv) (code : String),
      fnNamePat (wgslPre env code) "main" = true →
      wgsl env code = wgslPre env code) ∧
    (∀ (env : WgslEnv) (code : String),
      containsWord code "width" = false →
      containsWord code "height" = false →
      noiseRef code = false →
      jsTrimL code.toList = code.toList →
      fnNamePat code "main" = true →
      wgsl env code = code) := by
  have hpre : ∀ (env : WgslEnv) (code : String),
      containsWord code "width" = false →
      containsWord code "height" = false →
      noiseRef code = false →
      jsTrimL code.toList = code.toList →
      wgslPre env code = code := by
    intro env code hw hh hn ht
    unfold wgslPre
    simp only [replaceWord_id code "width" env.widthS hw,
      replaceWord_id code "height" env.heightS hh, hn, Bool.false_and,
      Bool.false_eq_true, if_false, ht]
    exact mk_toList code
  constructor
  · intro env code hm
    unfold wgsl
    rw [if_pos hm]
  · intro env code hw hh hn ht hm
    have h1 := hpre env code hw hh hn ht
    unfold wgsl
    rw [h1, if_pos hm]

/-- Claim C7 amended, witness: a trimmed complete program passes through. -/
theorem C7_main_passthrough_amended_witness :
    wgsl ⟨"1.00", "2.00", "N"⟩ "fn main() \x7b \x7d" = "fn main() \x7b \x7d" :=
  C7_main_passthrough_amended.2 ⟨"1.00", "2.00", "N"⟩ "fn main() \x7b \x7d"
    (by decide) (by decide) (by decide) (by decide) (by decide)

end WGU
